import Mathlib

/-!
The version resolution engine of flant/web-router, `cmd/v-router/common.go`.

A shallow embedding of the release topology, the version/URL codec, the
stability cascade, the reverse lookup and the menu assembly, followed by the
theorems that settle the properties stated about them.

Go strings are modelled by Lean strings; every pattern the program searches for
is ASCII, so replacing and matching by character agrees with Go's replacing and
matching by byte on valid UTF-8 text.
-/

namespace VRouter

/-! ## Data model (`common.go`, lines 21-83) -/

/-- The fields of `GlobalConfigType` that the resolution engine reads. -/
structure GlobalConfigType where
  DefaultGroup : String
  DefaultChannel : String
  ShowLatestChannel : Bool
  LocationVersions : String
  deriving DecidableEq, Repr

/-- Type `ChannelType`: a channel name paired with one version. -/
structure ChannelType where
  Name : String
  Version : String
  deriving DecidableEq, Repr

/-- Type `ReleaseType`: a named group with its channel entries, in file order. -/
structure ReleaseType where
  Name : String
  Channels : List ChannelType
  deriving DecidableEq, Repr

/-- Type `ReleasesStatusType`: the topology, groups in file order. -/
structure ReleasesStatusType where
  Groups : List ReleaseType
  deriving DecidableEq, Repr

/-- Type `versionMenuItems`: one row of a menu. -/
structure versionMenuItems where
  Group : String
  Channel : String
  Version : String
  VersionURL : String
  IsCurrent : Bool
  deriving DecidableEq, Repr

/-- Type `templateDataType`, the receiver the menu builders fill in. -/
structure templateDataType where
  VersionItems : List versionMenuItems
  HTMLContent : String
  CurrentGroup : String
  CurrentChannel : String
  CurrentVersion : String
  CurrentLang : String
  AbsoluteVersion : String
  CurrentVersionURL : String
  CurrentPageURLRelative : String
  CurrentPageURL : String
  MenuDocumentationLink : String
  deriving DecidableEq, Repr

/-- Variable `channelsListReverseStability` (line 83). -/
def channelsListReverseStability : List String :=
  ["rock-solid", "stable", "ea", "beta", "alpha"]

/-! ## `strings.ReplaceAll` and the codec (lines 544-554) -/

/-- Go `strings.ReplaceAll(s, old, new)` for a non-empty `old`, on the characters of
`s`: the text is scanned from the left; where `old` starts, `new` is emitted and
the scan resumes right after that occurrence, otherwise the character is kept.
The counter is the number of characters of the current occurrence still to be
skipped, which keeps the recursion structural. -/
def replaceAllAux (old new : List Char) : Nat → List Char → List Char
  | _, [] => []
  | k + 1, _ :: cs => replaceAllAux old new k cs
  | 0, c :: cs =>
    if old.isPrefixOf (c :: cs) then new ++ replaceAllAux old new (old.length - 1) cs
    else c :: replaceAllAux old new 0 cs

/-- Go `strings.ReplaceAll` on strings (`old` non-empty). -/
def replaceAll (s old new : String) : String :=
  ⟨replaceAllAux old.data new.data 0 s.data⟩

/-- Function `VersionToURL` (lines 544-548). -/
def VersionToURL (version : String) : String :=
  let result := replaceAll version "+" "-plus-"
  let result := replaceAll result "_" "-u-"
  result

/-- Function `URLToVersion` (lines 550-554). -/
def URLToVersion (version : String) : String :=
  let result := replaceAll version "-plus-" "+"
  let result := replaceAll result "-u-" "_"
  result

/-- Go `strings.Contains(s, sub)`: `sub` occurs in `s` as a contiguous run. -/
def Contains (s sub : String) : Prop := sub.data <:+: s.data

instance (s sub : String) : Decidable (Contains s sub) := by
  unfold Contains; infer_instance

/-! ## Go maps from string to string -/

/-- A `map[string]string` as the list of its assignments, latest first. -/
abbrev GoMap := List (String × String)

/-- Go `m[k] = v`. -/
def GoMap.set (m : GoMap) (k v : String) : GoMap := (k, v) :: m

/-- Go `v, ok := m[k]`: the latest assignment to `k`, if any. -/
def GoMap.get? : GoMap → String → Option String
  | [], _ => none
  | (k1, v) :: r, k => if k1 = k then some v else GoMap.get? r k

/-- Go `_, ok := m[k]`. -/
def GoMap.has (m : GoMap) (k : String) : Bool := (m.get? k).isSome

/-- Go `m[k]`, the empty string when `k` is absent. -/
def GoMap.get (m : GoMap) (k : String) : String := (m.get? k).getD ""

/-! ## Exact lookup (lines 363-375) -/

/-- The inner loop of `getVersionFromChannelAndGroup`: the version of the first
entry named `channel`. -/
def findChannelVersion (channel : String) : List ChannelType → Option String
  | [] => none
  | channelItem :: rest =>
    if channelItem.Name = channel then some channelItem.Version
    else findChannelVersion channel rest

/-- The outer loop of `getVersionFromChannelAndGroup`. -/
def findGroupChannelVersion (channel group : String) : List ReleaseType → Option String
  | [] => none
  | releaseItem :: rest =>
    if releaseItem.Name = group then
      match findChannelVersion channel releaseItem.Channels with
      | some v => some v
      | none => findGroupChannelVersion channel group rest
    else findGroupChannelVersion channel group rest

/-- The text of the error of `getVersionFromChannelAndGroup`. -/
def noMatchingVersionError (group channel : String) : String :=
  "no matching version for group " ++ group ++ ", channel " ++ channel

/-- Function `getVersionFromChannelAndGroup` (lines 363-375): the version and the error
(`none` for `nil`). -/
def getVersionFromChannelAndGroup (releases : ReleasesStatusType)
    (channel group : String) : String × Option String :=
  match findGroupChannelVersion channel group releases.Groups with
  | some v => (v, none)
  | none => ("", some (noMatchingVersionError group channel))

/-! ## The stability cascade (lines 377-413) -/

/-- The loop of `getVersionFromGroup` over the groups: `Sum.inl v` when the loop
returns `v`, `Sum.inr m` when it ends with `releaseVersions = m`. The map is
declared before the loop, so it is carried from one group to the next. -/
def cascadeLoop (DefaultChannel group : String) :
    List ReleaseType → GoMap → String ⊕ GoMap
  | [], releaseVersions => Sum.inr releaseVersions
  | ReleaseGroup :: rest, releaseVersions =>
    if ReleaseGroup.Name = group then
      let releaseVersions := ReleaseGroup.Channels.foldl
        (fun m channel => m.set channel.Name channel.Version) releaseVersions
      if releaseVersions.has "stable" ∧ DefaultChannel = "stable" then
        Sum.inl (releaseVersions.get "stable")
      else if releaseVersions.has "ea" ∧
          (DefaultChannel = "stable" ∨ DefaultChannel = "ea") then
        Sum.inl (releaseVersions.get "ea")
      else if releaseVersions.has "beta" ∧
          (DefaultChannel = "stable" ∨ DefaultChannel = "ea" ∨ DefaultChannel = "beta") then
        Sum.inl (releaseVersions.get "beta")
      else if releaseVersions.has "alpha" ∧
          (DefaultChannel = "stable" ∨ DefaultChannel = "ea" ∨ DefaultChannel = "beta"
            ∨ DefaultChannel = "alpha") then
        Sum.inl (releaseVersions.get "alpha")
      else cascadeLoop DefaultChannel group rest releaseVersions
    else cascadeLoop DefaultChannel group rest releaseVersions

/-- The text of the error of `getVersionFromGroup`. -/
def noVersionForGroupError (group : String) : String :=
  "can't get version for group " ++ group

/-- Function `getVersionFromGroup` (lines 377-413): the version and the error (`none`
for `nil`). -/
def getVersionFromGroup (GlobalConfig : GlobalConfigType) (releases : ReleasesStatusType)
    (group : String) : String × Option String :=
  if GlobalConfig.DefaultChannel = "latest" then ("latest", none)
  else
    let looped : String ⊕ GoMap :=
      if releases.Groups.length > 0 then
        cascadeLoop GlobalConfig.DefaultChannel group releases.Groups []
      else Sum.inr []
    match looped with
    | Sum.inl version => (version, none)
    | Sum.inr releaseVersions =>
      if (releaseVersions.get "alpha").length > 0 then (releaseVersions.get "alpha", none)
      else ("", some (noVersionForGroupError group))

/-! ## Group ordering (lines 609-627) -/

/-- What `getGroups` uses of `float64`: the values, zero, the comparison `>`,
and the value `strconv.ParseFloat(s, 32)` returns without error (`none` when it
returns an error) on a text that passes its check of the first byte. The
arithmetic of floating-point numbers is not reproduced; every theorem holds for
whatever these components are, given that zero is not greater than zero. -/
structure Float64Model where
  F : Type
  zero : F
  gt : F → F → Bool
  parseNumeric : String → Option F
  gt_zero_zero : gt zero zero = false

/-- The bytes a text accepted by `strconv.ParseFloat` can start with: a sign, a
digit, the point, the underscore, and the first letter of `inf`, `infinity`
and `nan` in either case. -/
def floatFirstBytes : List Char :=
  ['+', '-', '.', '_', '0', '1', '2', '3', '4', '5', '6', '7', '8', '9',
    'i', 'I', 'n', 'N']

/-- Go `strconv.ParseFloat(s, 32)`: `none` for an error. The empty text and every
text whose first byte cannot start a number (such as `v1`) are syntax errors. -/
def parseFloat (fm : Float64Model) (s : String) : Option fm.F :=
  match s.data with
  | [] => none
  | c :: _ => if c ∈ floatFirstBytes then fm.parseNumeric s else none

/-- The body `if _i, err = strconv.ParseFloat(name, 32); err != nil { _i = 0 }`. -/
def floatOrZero (fm : Float64Model) (name : String) : fm.F :=
  match parseFloat fm name with
  | some x => x
  | none => fm.zero

/-- The comparison handed to `sort.Slice` (lines 615-625), on the two elements
at the indices it is called with. -/
def groupLess (fm : Float64Model) (a b : String) : Bool :=
  fm.gt (floatOrZero fm a) (floatOrZero fm b)

/-- The inner loop of Go's insertion sort (`for j := i; j > a && less(j, j-1);
j-- { swap(j, j-1) }`): `x` is the element at index `j` and the list holds the
elements to its left, nearest first; the result is the slice up to index `i`,
rightmost element first. -/
def insertLeft {α : Type} (less : α → α → Bool) (x : α) : List α → List α
  | [] => [x]
  | y :: ys => if less x y then y :: insertLeft less x ys else x :: y :: ys

/-- Go `sort.Slice(data, less)` as the `sort` package runs it on a slice of at most
12 elements (at most 6 before Go 1.19): insertion sort. Longer slices are sorted
by another algorithm, which also returns a rearrangement of the input. -/
def sortSlice {α : Type} (less : α → α → Bool) (data : List α) : List α :=
  (data.foldl (fun done x => insertLeft less x done) []).reverse

/-- Function `getGroups` (lines 609-627), reading the global `ReleasesStatus`. -/
def getGroups (fm : Float64Model) (ReleasesStatus : ReleasesStatusType) : List String :=
  let groups := ReleasesStatus.Groups.map (fun item => item.Name)
  sortSlice (groupLess fm) groups

/-! ## Regular expressions -/

/-- A backtracking matcher: for a text, every way to match a prefix of it, as
the value captured and the rest of the text, in the order of preference of
Go's `regexp` (leftmost-first). -/
abbrev Matcher (α : Type) := List Char → List (α × List Char)

/-- The empty pattern, capturing `a`. -/
def Matcher.pure {α : Type} (a : α) : Matcher α := fun s => [(a, s)]

/-- Concatenation: `m` followed by what `f` builds from its capture. -/
def Matcher.bind {α β : Type} (m : Matcher α) (f : α → Matcher β) : Matcher β :=
  fun s => (m s).flatMap (fun r => f r.1 r.2)

/-- Alternation `a|b`, `a` preferred. -/
def Matcher.alt {α : Type} (a b : Matcher α) : Matcher α := fun s => a s ++ b s

/-- One character of a class. -/
def Matcher.cls (p : Char → Bool) : Matcher Char
  | [] => []
  | c :: t => if p c then [(c, t)] else []

/-- A literal text. -/
def Matcher.lit (l : List Char) : Matcher (List Char) :=
  fun s => if l.isPrefixOf s then [(l, s.drop l.length)] else []

/-- Greedy repetition `x*` of a character class, longest match first. -/
def Matcher.many (p : Char → Bool) : Matcher (List Char)
  | [] => [([], [])]
  | c :: t =>
    if p c then ((Matcher.many p t).map (fun r => (c :: r.1, r.2))) ++ [([], c :: t)]
    else [([], c :: t)]

/-- Greedy repetition `x+` of a character class. -/
def Matcher.many1 (p : Char → Bool) : Matcher (List Char) :=
  Matcher.bind (Matcher.cls p) (fun c =>
    Matcher.bind (Matcher.many p) (fun cs => Matcher.pure (c :: cs)))

/-- Greedy option `x?`. -/
def Matcher.opt {α : Type} (m : Matcher α) : Matcher (Option α) :=
  Matcher.alt (Matcher.bind m (fun a => Matcher.pure (some a))) (Matcher.pure none)

/-- The end of the text, `$` without the multi-line flag. -/
def Matcher.eof : Matcher Unit := fun s => if s = [] then [((), [])] else []

/-- Go `re.FindStringSubmatch(s)` for a pattern anchored by `^`: the captures of
the preferred match, `none` for `nil`. -/
def findSubmatch {α : Type} (re : Matcher α) (s : String) : Option α :=
  ((re s.data).head?).map (·.1)

/-- The class `[0-9]`. -/
def isDigit09 (c : Char) : Bool := decide ('0' ≤ c) && decide (c ≤ '9')

/-- The pattern `^(v[0-9]+)$` (lines 277 and 339); the capture is group 1. -/
def reBareGroup : Matcher String :=
  Matcher.bind (Matcher.lit ['v']) (fun v =>
    Matcher.bind (Matcher.many1 isDigit09) (fun ds =>
      Matcher.bind Matcher.eof (fun _ => Matcher.pure ⟨v ++ ds⟩)))

/-! ## Reverse lookup (lines 336-361) -/

/-- The two inner loops of `getChannelAndGroupFromVersion`: some group named
`group` has an entry named `channel` whose version is `version`. -/
def versionRecorded (releases : ReleasesStatusType) (version channel group : String) : Bool :=
  releases.Groups.any (fun releaseItem =>
    decide (releaseItem.Name = group) &&
      releaseItem.Channels.any (fun channelItem =>
        decide (channelItem.Name = channel) && decide (channelItem.Version = version)))

/-- The loop over `channelsListReverseStability` for one group. -/
def scanChannels (releases : ReleasesStatusType) (version group : String) :
    List String → Option (String × String)
  | [] => none
  | channel :: rest =>
    if versionRecorded releases version channel group then some (channel, group)
    else scanChannels releases version group rest

/-- The loop over the groups of `getGroups()`. -/
def scanGroups (releases : ReleasesStatusType) (version : String) :
    List String → Option (String × String)
  | [] => none
  | group :: rest =>
    match scanChannels releases version group channelsListReverseStability with
    | some found => some found
    | none => scanGroups releases version rest

/-- Function `getChannelAndGroupFromVersion` (lines 336-361): the channel and the group.
The groups come from the global `ReleasesStatus`, the entries from `releases`. -/
def getChannelAndGroupFromVersion (fm : Float64Model)
    (ReleasesStatus releases : ReleasesStatusType) (version : String) : String × String :=
  match findSubmatch reBareGroup version with
  | some res1 => ("", res1)
  | none =>
    match scanGroups releases version (getGroups fm ReleasesStatus) with
    | some found => found
    | none => ("", "")

/-! ## Request decomposition (lines 441-542)

The patterns are built by `fmt.Sprintf` around `GlobalConfig.LocationVersions`
and compiled by `regexp.MustCompile`. The matchers `reCurrentLang`, `reDocPage`,
`reVersionURL` and `reDocSection` are these patterns for a `LocationVersions`
that holds no metacharacter of regular expressions, as its default
`/documentation` does: it is matched as a literal text. `getCurrentLang`,
`getDocPageURLRelative` and `getVersionURL` give what the functions return for
such a configuration; `mustCompile` and the functions named `run...` add what
happens for the other configurations. -/

/-- The result of `url.Parse`, as far as the program reads it. -/
structure URL where
  Path : String
  /-- The outcome of `url.ParseQuery(RawQuery)`: `none` when it fails, otherwise
  the value of `values.Get("uri")`. -/
  QueryURI : Option String
  deriving DecidableEq, Repr

/-- The request, as far as the program reads it: the outcome of `url.Parse` on
the header `x-original-uri` and on `r.RequestURI`, `none` when parsing fails. -/
structure Request where
  OriginalURI : Option URL
  RequestURI : Option URL
  deriving DecidableEq, Repr

/-- The class `.`: any character but the newline. -/
def isDot (c : Char) : Bool := decide (c ≠ '\n')

/-- The class `[^/]`. -/
def isNotSlash (c : Char) : Bool := decide (c ≠ '/')

/-- The group `(ru|en)`. -/
def reLangGroup : Matcher (List Char) :=
  Matcher.alt (Matcher.lit "ru".data) (Matcher.lit "en".data)

/-- The pattern `^/(ru|en)<LocationVersions>/.+$` (line 469) for a
`LocationVersions` without metacharacters; the capture is group 1. -/
def reCurrentLang (LocationVersions : String) : Matcher String :=
  Matcher.bind (Matcher.lit "/".data) (fun _ =>
    Matcher.bind reLangGroup (fun lang =>
      Matcher.bind (Matcher.lit LocationVersions.data) (fun _ =>
        Matcher.bind (Matcher.lit "/".data) (fun _ =>
          Matcher.bind (Matcher.many1 isDot) (fun _ =>
            Matcher.bind Matcher.eof (fun _ => Matcher.pure ⟨lang⟩))))))

/-- The pattern `^/(ru|en)(<LocationVersions>/[^/]+)?/(.*)$` (line 503) for a
`LocationVersions` without metacharacters; the captures are groups 2 and 3,
group 2 being empty when it takes no part in the match. -/
def reDocPage (LocationVersions : String) : Matcher (String × String) :=
  Matcher.bind (Matcher.lit "/".data) (fun _ =>
    Matcher.bind reLangGroup (fun _ =>
      Matcher.bind (Matcher.opt
        (Matcher.bind (Matcher.lit LocationVersions.data) (fun a =>
          Matcher.bind (Matcher.lit "/".data) (fun b =>
            Matcher.bind (Matcher.many1 isNotSlash) (fun c =>
              Matcher.pure (a ++ b ++ c)))))) (fun g2 =>
        Matcher.bind (Matcher.lit "/".data) (fun _ =>
          Matcher.bind (Matcher.many isDot) (fun g3 =>
            Matcher.bind Matcher.eof (fun _ =>
              Matcher.pure (⟨g2.getD []⟩, ⟨g3⟩)))))))

/-- The pattern `^/(ru|en)<LocationVersions>/([^/]+)/?.*$` (line 535) for a
`LocationVersions` without metacharacters; the capture is group 2. -/
def reVersionURL (LocationVersions : String) : Matcher String :=
  Matcher.bind (Matcher.lit "/".data) (fun _ =>
    Matcher.bind reLangGroup (fun _ =>
      Matcher.bind (Matcher.lit LocationVersions.data) (fun _ =>
        Matcher.bind (Matcher.lit "/".data) (fun _ =>
          Matcher.bind (Matcher.many1 isNotSlash) (fun seg =>
            Matcher.bind (Matcher.opt (Matcher.lit "/".data)) (fun _ =>
              Matcher.bind (Matcher.many isDot) (fun _ =>
                Matcher.bind Matcher.eof (fun _ => Matcher.pure ⟨seg⟩))))))))

/-- Go `strings.TrimPrefix(s, "/")`. -/
def trimSlashPrefix (s : String) : String :=
  match s.data with
  | '/' :: t => ⟨t⟩
  | _ => s

/-- Function `getCurrentPageURL` (lines 441-454). -/
def getCurrentPageURL (r : Request) : String :=
  match r.OriginalURI with
  | none => ""
  | some originalURI => if originalURI.Path = "/404.html" then "" else originalURI.Path

/-- Function `getCurrentLang` (lines 456-476), for a configuration whose
`LocationVersions` holds no metacharacter (`runGetCurrentLang` for the others). -/
def getCurrentLang (GlobalConfig : GlobalConfigType) (r : Request) : String :=
  match r.OriginalURI with
  | none => "en"
  | some originalURI =>
    if originalURI.Path = "/404.html" then "en"
    else
      match findSubmatch (reCurrentLang GlobalConfig.LocationVersions) originalURI.Path with
      | some res1 => res1
      | none => "en"

/-- Function `getDocPageURLRelative` (lines 478-513), for a configuration whose
`LocationVersions` holds no metacharacter (`runGetDocPageURLRelative` for the
others). -/
def getDocPageURLRelative (GlobalConfig : GlobalConfigType) (r : Request)
    (useURI : Bool) : String :=
  match (if useURI then r.RequestURI else r.OriginalURI) with
  | none => ""
  | some originalURI =>
    if originalURI.Path = "/404.html" then ""
    else
      match findSubmatch (reDocPage GlobalConfig.LocationVersions) originalURI.Path with
      | some (res2, res3) =>
        if res2.length > 0 then res3 else res2 ++ "/" ++ res3
      | none => ""

/-- Function `getVersionURL` (lines 515-542), for a configuration whose
`LocationVersions` holds no metacharacter (`runGetVersionURL` for the others). -/
def getVersionURL (GlobalConfig : GlobalConfigType) (r : Request) : String :=
  match r.OriginalURI with
  | none => ""
  | some originalURI =>
    let target : Option String :=
      if originalURI.Path = "/404.html" then originalURI.QueryURI
      else some originalURI.Path
    match target with
    | none => ""
    | some URLtoParse =>
      let result :=
        match findSubmatch (reVersionURL GlobalConfig.LocationVersions) URLtoParse with
        | some res2 => res2
        | none => ""
      trimSlashPrefix result

/-! ## Compilation of the patterns built around `LocationVersions` -/

/-- How a call ends: it returns a value, it panics, or it depends on a pattern
that this development does not interpret. -/
inductive Outcome (α : Type) where
  | done (a : α)
  | panic
  | unmodelled
  deriving DecidableEq, Repr

/-- Sequencing: the rest of the function runs when the call has returned. -/
def Outcome.bind {α β : Type} : Outcome α → (α → Outcome β) → Outcome β
  | Outcome.done a, f => f a
  | Outcome.panic, _ => Outcome.panic
  | Outcome.unmodelled, _ => Outcome.unmodelled

/-- The value a call returns, if it returns. -/
def Outcome.returned? {α : Type} : Outcome α → Option α
  | Outcome.done a => some a
  | Outcome.panic => none
  | Outcome.unmodelled => none

/-- The metacharacters of regular expressions, the ones `regexp.QuoteMeta`
escapes. -/
def regexpMetaChars : List Char :=
  ['\\', '.', '+', '*', '?', '(', ')', '|', '[', ']', '{', '}', '^', '$']

/-- The fragment holds no metacharacter: spliced into a pattern it stands for
itself. -/
def isLiteralFragment (fragment : String) : Bool :=
  fragment.data.all (fun c => decide (c ∉ regexpMetaChars))

/-- The fragment holds an opening parenthesis and no other metacharacter:
spliced into a pattern with balanced parentheses, outside of a character class,
it leaves a group unclosed. -/
def leavesGroupOpen (fragment : String) : Bool :=
  decide ('(' ∈ fragment.data) &&
    fragment.data.all (fun c => decide (c = '(' ∨ c ∉ regexpMetaChars))

/-- Go `regexp.MustCompile(fmt.Sprintf(pattern, GlobalConfig.LocationVersions))`
for the four patterns of lines 205, 469, 503 and 535, which have balanced
parentheses and take the fragment outside of a character class; `re` is the
pattern with the fragment read as literal text. A fragment without
metacharacters gives that pattern. A fragment whose only metacharacters are
opening parentheses gives a pattern that misses a closing parenthesis, and
`MustCompile` panics. The patterns of the other fragments are not interpreted. -/
def mustCompile {α : Type} (LocationVersions : String) (re : Matcher α) :
    Outcome (Matcher α) :=
  if isLiteralFragment LocationVersions then Outcome.done re
  else if leavesGroupOpen LocationVersions then Outcome.panic
  else Outcome.unmodelled

/-- Function `getCurrentLang` (lines 456-476) with the compilation of its
pattern, which is reached once the header is parsed and the path is not
`/404.html`. -/
def runGetCurrentLang (GlobalConfig : GlobalConfigType) (r : Request) : Outcome String :=
  match r.OriginalURI with
  | none => Outcome.done "en"
  | some originalURI =>
    if originalURI.Path = "/404.html" then Outcome.done "en"
    else
      (mustCompile GlobalConfig.LocationVersions
        (reCurrentLang GlobalConfig.LocationVersions)).bind (fun re =>
          match findSubmatch re originalURI.Path with
          | some res1 => Outcome.done res1
          | none => Outcome.done "en")

/-- Function `getDocPageURLRelative` (lines 478-513) with the compilation of its
pattern, which is reached once the URI is parsed and the path is not
`/404.html`. -/
def runGetDocPageURLRelative (GlobalConfig : GlobalConfigType) (r : Request)
    (useURI : Bool) : Outcome String :=
  match (if useURI then r.RequestURI else r.OriginalURI) with
  | none => Outcome.done ""
  | some originalURI =>
    if originalURI.Path = "/404.html" then Outcome.done ""
    else
      (mustCompile GlobalConfig.LocationVersions
        (reDocPage GlobalConfig.LocationVersions)).bind (fun re =>
          match findSubmatch re originalURI.Path with
          | some (res2, res3) =>
            if res2.length > 0 then Outcome.done res3
            else Outcome.done (res2 ++ "/" ++ res3)
          | none => Outcome.done "")

/-- Function `getVersionURL` (lines 515-542) with the compilation of its
pattern, which is reached once the header is parsed and, for the path
`/404.html`, the query is parsed. -/
def runGetVersionURL (GlobalConfig : GlobalConfigType) (r : Request) : Outcome String :=
  match r.OriginalURI with
  | none => Outcome.done ""
  | some originalURI =>
    let target : Option String :=
      if originalURI.Path = "/404.html" then originalURI.QueryURI
      else some originalURI.Path
    match target with
    | none => Outcome.done ""
    | some URLtoParse =>
      (mustCompile GlobalConfig.LocationVersions
        (reVersionURL GlobalConfig.LocationVersions)).bind (fun re =>
          let result :=
            match findSubmatch re URLtoParse with
            | some res2 => res2
            | none => ""
          Outcome.done (trimSlashPrefix result))

/-! ## Menu assembly (lines 145-334) -/

/-- Go `regexp.MatchString(pattern, s)` for a pattern without anchors: the pattern
matches at some position of the text. -/
def matchAnywhere {α : Type} (re : Matcher α) (s : String) : Bool :=
  s.data.tails.any (fun t => !(re t).isEmpty)

/-- The pattern `v[0-9]+.[0-9]+-(alpha|beta|ea|stable|rock-solid)` (line 153). -/
def reGroupChannel : Matcher Unit :=
  Matcher.bind (Matcher.lit "v".data) (fun _ =>
    Matcher.bind (Matcher.many1 isDigit09) (fun _ =>
      Matcher.bind (Matcher.cls isDot) (fun _ =>
        Matcher.bind (Matcher.many1 isDigit09) (fun _ =>
          Matcher.bind (Matcher.lit "-".data) (fun _ =>
            Matcher.bind
              (Matcher.alt (Matcher.lit "alpha".data)
                (Matcher.alt (Matcher.lit "beta".data)
                  (Matcher.alt (Matcher.lit "ea".data)
                    (Matcher.alt (Matcher.lit "stable".data)
                      (Matcher.lit "rock-solid".data)))))
              (fun _ => Matcher.pure ()))))))

/-- The pattern `^/[^/]<LocationVersions>/(.+)$` (line 205) for a
`LocationVersions` without metacharacters. -/
def reDocSection (LocationVersions : String) : Matcher String :=
  Matcher.bind (Matcher.lit "/".data) (fun _ =>
    Matcher.bind (Matcher.cls isNotSlash) (fun _ =>
      Matcher.bind (Matcher.lit LocationVersions.data) (fun _ =>
        Matcher.bind (Matcher.lit "/".data) (fun _ =>
          Matcher.bind (Matcher.many1 isDot) (fun rest =>
            Matcher.bind Matcher.eof (fun _ => Matcher.pure ⟨rest⟩))))))

/-- The pattern `^(v[0-9]+)(\..+)?$` (line 215); the captures are groups 0, 1
and 2, group 2 being empty when it takes no part in the match. -/
def reVersionParts : Matcher (String × String × String) :=
  Matcher.bind (Matcher.lit "v".data) (fun v =>
    Matcher.bind (Matcher.many1 isDigit09) (fun ds =>
      Matcher.bind (Matcher.opt
        (Matcher.bind (Matcher.lit ".".data) (fun a =>
          Matcher.bind (Matcher.many1 isDot) (fun b => Matcher.pure (a ++ b))))) (fun g2 =>
        Matcher.bind Matcher.eof (fun _ =>
          Matcher.pure (⟨v ++ ds ++ g2.getD []⟩, ⟨v ++ ds⟩, ⟨g2.getD []⟩)))))

/-- Go `strings.Split(s, sep)` for a separator of one character, on characters. -/
def splitOnChar (sep : Char) : List Char → List (List Char)
  | [] => [[]]
  | c :: t =>
    if c = sep then [] :: splitOnChar sep t
    else
      match splitOnChar sep t with
      | [] => [[c]]
      | piece :: pieces => (c :: piece) :: pieces

/-- Go `strings.Split(s, "-")`. -/
def splitDash (s : String) : List String :=
  (splitOnChar '-' s.data).map String.mk

/-- Go `m.VersionItems = append(m.VersionItems, item)`. -/
def appendItem (m : templateDataType) (item : versionMenuItems) : templateDataType :=
  { m with VersionItems := m.VersionItems ++ [item] }

/-- The first menu item of `getChannelMenuData` and `getVersionMenuData` (lines
178-184 and 235-241). -/
def currentItem (m : templateDataType) : versionMenuItems :=
  { Group := m.CurrentGroup
    Channel := m.CurrentChannel
    Version := m.CurrentVersion
    VersionURL := m.CurrentVersionURL
    IsCurrent := true }

/-- The items `getChannelsFromGroup` appends for `group`: for every group of
that name, for every channel of `channelsListReverseStability`, the entries of
the group with that channel name. -/
def channelItemsOfGroup (releases : ReleasesStatusType) (group : String) :
    List versionMenuItems :=
  (releases.Groups.filter (fun item => item.Name = group)).flatMap (fun item =>
    channelsListReverseStability.flatMap (fun channel =>
      (item.Channels.filter (fun channelItem => channelItem.Name = channel)).map
        (fun channelItem =>
          { Group := group
            Channel := channelItem.Name
            Version := channelItem.Version
            VersionURL := VersionToURL channelItem.Version
            IsCurrent := false })))

/-- Function `getChannelsFromGroup` (lines 313-334). -/
def getChannelsFromGroup (m : templateDataType) (releases : ReleasesStatusType)
    (group : String) : templateDataType :=
  { m with VersionItems := m.VersionItems ++ channelItemsOfGroup releases group }

/-- The loop `for _, group := range getGroups() { _ = m.getChannelsFromGroup(
&ReleasesStatus, group) }` of lines 187-190 and 244-247. -/
def addOtherItems (fm : Float64Model) (ReleasesStatus : ReleasesStatusType)
    (m : templateDataType) : templateDataType :=
  (getGroups fm ReleasesStatus).foldl
    (fun m group => getChannelsFromGroup m ReleasesStatus group) m

/-- The lines 153-175 of `getChannelMenuData`, which work out the current
selection from the decomposed request. -/
def channelMenuSelect (fm : Float64Model) (GlobalConfig : GlobalConfigType)
    (ReleasesStatus : ReleasesStatusType) (m : templateDataType)
    (releases : ReleasesStatusType) : templateDataType :=
  let m :=
    if matchAnywhere reGroupChannel m.CurrentVersionURL then
      let items := splitDash m.CurrentVersionURL
      match items with
      | [item0, item1] =>
        let m := { m with CurrentGroup := item0 }
        let m := { m with CurrentChannel := item1 }
        let m := { m with CurrentVersion :=
          (getVersionFromChannelAndGroup releases m.CurrentChannel m.CurrentGroup).1 }
        { m with CurrentVersionURL := VersionToURL m.CurrentVersion }
      | _ => m
    else { m with CurrentVersion := URLToVersion m.CurrentVersionURL }
  let m := { m with CurrentVersion := URLToVersion m.CurrentVersionURL }
  let m :=
    if m.CurrentVersion = "" then
      let m := { m with CurrentVersion := GlobalConfig.DefaultGroup }
      { m with CurrentVersionURL := VersionToURL m.CurrentVersion }
    else m
  let m :=
    if m.CurrentChannel = "" ∨ m.CurrentGroup = "" then
      let found := getChannelAndGroupFromVersion fm ReleasesStatus releases m.CurrentVersion
      { m with CurrentChannel := found.1, CurrentGroup := found.2 }
    else m
  m

/-- The first part of `getChannelMenuData` (lines 148-175), which fills in the
current selection. -/
def channelMenuCurrent (fm : Float64Model) (GlobalConfig : GlobalConfigType)
    (ReleasesStatus : ReleasesStatusType) (m : templateDataType) (r : Request)
    (releases : ReleasesStatusType) : Outcome templateDataType :=
  (runGetDocPageURLRelative GlobalConfig r false).bind (fun relative =>
    let m := { m with CurrentPageURLRelative := relative }
    let m := { m with CurrentPageURL := getCurrentPageURL r }
    (runGetVersionURL GlobalConfig r).bind (fun versionURL =>
      let m := { m with CurrentVersionURL := versionURL }
      (runGetCurrentLang GlobalConfig r).bind (fun lang =>
        let m := { m with CurrentLang := lang }
        Outcome.done (channelMenuSelect fm GlobalConfig ReleasesStatus m releases))))

/-- Function `getChannelMenuData` (lines 145-193); its error is always `nil`. -/
def getChannelMenuData (fm : Float64Model) (GlobalConfig : GlobalConfigType)
    (ReleasesStatus : ReleasesStatusType) (m : templateDataType) (r : Request)
    (releases : ReleasesStatusType) : Outcome templateDataType :=
  (channelMenuCurrent fm GlobalConfig ReleasesStatus m r releases).bind (fun m =>
    let m := appendItem m (currentItem m)
    Outcome.done (addOtherItems fm ReleasesStatus m))

/-- The lines 215-232 of `getVersionMenuData`, which set the documentation link
and the absolute version, with the error left in `err` (`none` for `nil`): the
error of `getVersionFromGroup`, when that call is reached. -/
def versionMenuLink (GlobalConfig : GlobalConfigType)
    (ReleasesStatus : ReleasesStatusType) (m : templateDataType) :
    templateDataType × Option String :=
  match findSubmatch reVersionParts m.CurrentVersion with
  | some (res0, res1, res2) =>
    if res2 ≠ "" then
      let m := { m with MenuDocumentationLink :=
        GlobalConfig.LocationVersions ++ "/" ++ VersionToURL res0 ++ "/" }
      ({ m with AbsoluteVersion := m.CurrentVersion }, none)
    else
      let m := { m with MenuDocumentationLink :=
        GlobalConfig.LocationVersions ++ "/" ++ VersionToURL m.CurrentVersion ++ "/" }
      let got := getVersionFromGroup GlobalConfig ReleasesStatus res1
      ({ m with AbsoluteVersion := got.1 }, got.2)
  | none =>
    if GlobalConfig.ShowLatestChannel = true ∧ m.CurrentVersion = "latest" then
      let m := { m with MenuDocumentationLink :=
        GlobalConfig.LocationVersions ++ "/" ++ m.CurrentVersion ++ "/" }
      ({ m with AbsoluteVersion := m.CurrentVersion }, none)
    else (m, none)

/-- The lines 204-213 of `getVersionMenuData`: when the request names no
version, the pattern of line 205 is compiled and decides whether the default
group is taken. -/
def versionMenuDefault (GlobalConfig : GlobalConfigType) (m : templateDataType) :
    Outcome templateDataType :=
  if m.CurrentVersion = "" then
    (mustCompile GlobalConfig.LocationVersions
      (reDocSection GlobalConfig.LocationVersions)).bind (fun re =>
        match findSubmatch re m.CurrentPageURL with
        | none => Outcome.done { m with MenuDocumentationLink := "" }
        | some _ =>
          let m := { m with CurrentVersion := GlobalConfig.DefaultGroup }
          Outcome.done { m with CurrentVersionURL := VersionToURL m.CurrentVersion })
  else Outcome.done m

/-- The first part of `getVersionMenuData` (lines 198-232), which fills in the
current selection. -/
def versionMenuCurrent (GlobalConfig : GlobalConfigType)
    (ReleasesStatus : ReleasesStatusType) (m : templateDataType) (r : Request) :
    Outcome (templateDataType × Option String) :=
  (runGetDocPageURLRelative GlobalConfig r false).bind (fun relative =>
    let m := { m with CurrentPageURLRelative := relative }
    let m := { m with CurrentPageURL := getCurrentPageURL r }
    (runGetVersionURL GlobalConfig r).bind (fun versionURL =>
      let m := { m with CurrentVersionURL := versionURL }
      let m := { m with CurrentVersion := URLToVersion m.CurrentVersionURL }
      (runGetCurrentLang GlobalConfig r).bind (fun lang =>
        let m := { m with CurrentLang := lang }
        (versionMenuDefault GlobalConfig m).bind (fun m =>
          Outcome.done (versionMenuLink GlobalConfig ReleasesStatus m)))))

/-- The lines 234-258 of `getVersionMenuData`, which append the items. -/
def versionMenuAssemble (fm : Float64Model) (GlobalConfig : GlobalConfigType)
    (ReleasesStatus : ReleasesStatusType) (m : templateDataType) : templateDataType :=
  let m := appendItem m (currentItem m)
  let m := addOtherItems fm ReleasesStatus m
  if GlobalConfig.ShowLatestChannel = true then
    appendItem m
      { Group := ""
        Channel := ""
        Version := "latest"
        VersionURL := "latest"
        IsCurrent := false }
  else m

/-- Function `getVersionMenuData` (lines 195-261), with the error it returns. -/
def getVersionMenuData (fm : Float64Model) (GlobalConfig : GlobalConfigType)
    (ReleasesStatus : ReleasesStatusType) (m : templateDataType) (r : Request) :
    Outcome (templateDataType × Option String) :=
  (versionMenuCurrent GlobalConfig ReleasesStatus m r).bind (fun step =>
    let m := step.1
    let err := step.2
    Outcome.done (versionMenuAssemble fm GlobalConfig ReleasesStatus m, err))

/-- The first part of `getGroupMenuData` (lines 266-275), which fills in the
current selection. -/
def groupMenuCurrent (GlobalConfig : GlobalConfigType) (m : templateDataType)
    (r : Request) : Outcome templateDataType :=
  (runGetDocPageURLRelative GlobalConfig r false).bind (fun relative =>
    let m := { m with CurrentPageURLRelative := relative }
    let m := { m with CurrentPageURL := getCurrentPageURL r }
    (runGetVersionURL GlobalConfig r).bind (fun versionURL =>
      let m := { m with CurrentVersionURL := versionURL }
      let m := { m with CurrentVersion := URLToVersion m.CurrentVersionURL }
      (runGetCurrentLang GlobalConfig r).bind (fun lang =>
        let m := { m with CurrentLang := lang }
        let m :=
          if m.CurrentVersion = "" then
            let m := { m with CurrentVersion := GlobalConfig.DefaultGroup }
            { m with CurrentVersionURL := VersionToURL m.CurrentVersion }
          else m
        Outcome.done m)))

/-- The first item of `getGroupMenuData` (lines 277-296). -/
def groupMenuFirst (m : templateDataType) : templateDataType :=
  match findSubmatch reBareGroup m.CurrentVersion with
  | some res1 =>
    appendItem m
      { Group := res1
        Channel := ""
        Version := m.CurrentVersion
        VersionURL := m.CurrentVersionURL
        IsCurrent := true }
  | none =>
    appendItem m
      { Group := ""
        Channel := ""
        Version := m.CurrentVersion
        VersionURL := m.CurrentVersionURL
        IsCurrent := true }

/-- The loop of lines 298-308 of `getGroupMenuData`, one item per group. -/
def addGroupItems (fm : Float64Model) (ReleasesStatus : ReleasesStatusType)
    (m : templateDataType) : templateDataType :=
  (getGroups fm ReleasesStatus).foldl
    (fun m group =>
      appendItem m
        { Group := group
          Channel := ""
          Version := ""
          VersionURL := ""
          IsCurrent := false }) m

/-- Function `getGroupMenuData` (lines 263-311); its error is always `nil`. -/
def getGroupMenuData (fm : Float64Model) (GlobalConfig : GlobalConfigType)
    (ReleasesStatus : ReleasesStatusType) (m : templateDataType) (r : Request) :
    Outcome templateDataType :=
  (groupMenuCurrent GlobalConfig m r).bind (fun m =>
    let m := groupMenuFirst m
    Outcome.done (addGroupItems fm ReleasesStatus m))

/-- The value `templateHandler` starts from (lines 121-132 of `handlers.go`). -/
def emptyTemplateData : templateDataType :=
  { VersionItems := []
    HTMLContent := ""
    CurrentGroup := ""
    CurrentChannel := ""
    CurrentVersion := ""
    CurrentLang := ""
    AbsoluteVersion := ""
    CurrentVersionURL := ""
    CurrentPageURLRelative := ""
    CurrentPageURL := ""
    MenuDocumentationLink := "" }

/-- A float model for evaluation, used where a theorem is applied to a concrete
input: the numbers are the integers and the texts read as numbers are the plain
decimal numerals. It is not `strconv.ParseFloat(s, 32)`: it agrees with it on
the numerals below `2^24` and on every text that `parseFloat` rejects at the
first byte, it rejects the other forms of numbers and it does not round. -/
def decimalModel : Float64Model where
  F := Int
  zero := 0
  gt := fun a b => decide (b < a)
  parseNumeric := fun s =>
    if s.data ≠ [] ∧ s.data.all isDigit09 then
      some (s.data.foldl (fun n c => 10 * n + ((c.toNat : Int) - 48)) 0)
    else none
  gt_zero_zero := by decide

/-! ## Words of the specification -/

/-- Group names are unique and a group has at most one entry per channel name
(invariants I2 and I3 of the specification). -/
def WellFormed (releases : ReleasesStatusType) : Prop :=
  (releases.Groups.map (·.Name)).Nodup ∧
    ∀ g ∈ releases.Groups, (g.Channels.map (·.Name)).Nodup

instance (releases : ReleasesStatusType) : Decidable (WellFormed releases) := by
  unfold WellFormed; infer_instance

/-- The rank of a channel in the order stable, ea, beta, alpha. -/
def stabilityRank (channel : String) : Option Nat :=
  if channel = "stable" then some 0
  else if channel = "ea" then some 1
  else if channel = "beta" then some 2
  else if channel = "alpha" then some 3
  else none

/-- Channel `a` is at least as stable as channel `b` (both among stable, ea,
beta, alpha). -/
def atLeastAsStable (a b : String) : Bool :=
  match stabilityRank a, stabilityRank b with
  | some ra, some rb => decide (ra ≤ rb)
  | _, _ => false

/-- The bare-group form `v<integer>`: the letter `v` followed by one or more
decimal digits. -/
def isBareGroup (version : String) : Bool :=
  match version.data with
  | 'v' :: d :: ds => (d :: ds).all isDigit09
  | _ => false

/-- The shape of an assembled menu: a first item that is current, followed by
items that are not. -/
def OneCurrentFirst (items : List versionMenuItems) : Prop :=
  ∃ first rest, items = first :: rest ∧ first.IsCurrent = true ∧
    ∀ item ∈ rest, item.IsCurrent = false

/-- An item with the version `latest`, an empty group and an empty channel. -/
def isLatestItem (item : versionMenuItems) : Prop :=
  item.Version = "latest" ∧ item.Group = "" ∧ item.Channel = ""

instance (item : versionMenuItems) : Decidable (isLatestItem item) := by
  unfold isLatestItem; infer_instance

/-- The menu item of the entry `ch` of the group named `group`. -/
def menuItemOf (group : String) (ch : ChannelType) : versionMenuItems :=
  { Group := group
    Channel := ch.Name
    Version := ch.Version
    VersionURL := VersionToURL ch.Version
    IsCurrent := false }

/-- The entries of the groups named `group` for the channel `channel`, in
topology order. -/
def matchingEntries (releases : ReleasesStatusType) (channel group : String) :
    List ChannelType :=
  ((releases.Groups.filter (fun g => g.Name = group)).map
    (fun g => g.Channels.filter (fun ch => ch.Name = channel))).flatten


/-! ## Auxiliary definitions used in the proofs -/

/-- Every occurrence of the character `c` replaced by the text `p`. -/
def expand (c : Char) (p : List Char) : List Char → List Char
  | [] => []
  | x :: t => (if x = c then p else [x]) ++ expand c p t

/-- The encoded text, character by character. -/
def encData (v : List Char) : List Char :=
  expand '_' "-u-".data (expand '+' "-plus-".data v)

/-- The texts whose presence in a version breaks the round trip through the
first decoding pass (`-plus-` back to `+`). -/
def reservedPlus : List String :=
  ["-plus-", "-plus+", "-plus_", "_plus-", "_plus+", "_plus_"]

/-- The texts whose presence in a version breaks the round trip through the
second decoding pass (`-u-` back to `_`). -/
def reservedU : List String := ["-u-", "-u_"]

/-- Every assignment of the map comes from an entry of a group named `G`. -/
def FromGroup (all : List ReleaseType) (G : String) (m : GoMap) : Prop :=
  ∀ k w, m.get? k = some w →
    ∃ g ∈ all, g.Name = G ∧ ∃ ch ∈ g.Channels, ch.Name = k ∧ ch.Version = w

/-! ## Theorems: the codec -/

theorem replaceAllAux_skip (old new : List Char) (os rest : List Char) :
    replaceAllAux old new os.length (os ++ rest) = replaceAllAux old new 0 rest := by
  induction os with
  | nil => rfl
  | cons o os ih => simpa [replaceAllAux] using ih

theorem replaceAllAux_hit (o : Char) (os new rest : List Char) :
    replaceAllAux (o :: os) new 0 ((o :: os) ++ rest)
      = new ++ replaceAllAux (o :: os) new 0 rest := by
  have h : (o :: os).isPrefixOf (o :: (os ++ rest)) = true := by
    simp [List.isPrefixOf_iff_prefix]
  show (if (o :: os).isPrefixOf (o :: (os ++ rest)) = true then
      new ++ replaceAllAux (o :: os) new ((o :: os).length - 1) (os ++ rest)
    else o :: replaceAllAux (o :: os) new 0 (os ++ rest)) = _
  rw [if_pos h]
  simp only [List.length_cons, Nat.add_sub_cancel]
  rw [replaceAllAux_skip]

theorem replaceAllAux_miss (old new : List Char) (c : Char) (cs : List Char)
    (h : ¬ old <+: c :: cs) :
    replaceAllAux old new 0 (c :: cs) = c :: replaceAllAux old new 0 cs := by
  have h2 : old.isPrefixOf (c :: cs) = false := by
    rw [Bool.eq_false_iff]; intro hp; exact h (List.isPrefixOf_iff_prefix.mp hp)
  simp [replaceAllAux, h2]

theorem replaceAllAux_single (c : Char) (p l : List Char) :
    replaceAllAux [c] p 0 l = expand c p l := by
  induction l with
  | nil => rfl
  | cons x t ih =>
    by_cases hx : x = c
    · subst hx
      have := replaceAllAux_hit x [] p t
      simpa [expand, ih] using this
    · have hm : ¬ [c] <+: x :: t := by
        intro h
        rcases h with ⟨r, hr⟩
        simp at hr
        exact hx hr.1.symm
      rw [replaceAllAux_miss _ _ _ _ hm, ih]
      simp [expand, hx]

theorem expand_append (c : Char) (p a b : List Char) :
    expand c p (a ++ b) = expand c p a ++ expand c p b := by
  induction a with
  | nil => rfl
  | cons x t ih => simp [expand, ih]

theorem VersionToURL_data (v : String) : (VersionToURL v).data = encData v.data := by
  simp [VersionToURL, replaceAll, replaceAllAux_single, encData]

theorem encData_cons (x : Char) (t : List Char) :
    encData (x :: t) =
      (if x = '+' then "-plus-".data else if x = '_' then "-u-".data else [x])
        ++ encData t := by
  unfold encData
  by_cases h1 : x = '+'
  · subst h1
    simp [expand, expand_append]
  · by_cases h2 : x = '_'
    · subst h2
      simp [expand]
    · simp [expand, h1, h2]

/-- A plain character at the head of an encoded text is a plain character at
the head of the text. -/
theorem encData_head_plain (a : Char) (w t : List Char)
    (ha : a ≠ '-') (h : a :: w <+: encData t) :
    ∃ t1, t = a :: t1 ∧ w <+: encData t1 := by
  cases t with
  | nil => simp [encData, expand] at h
  | cons x t1 =>
    rw [encData_cons] at h
    by_cases h1 : x = '+'
    · subst h1
      simp [List.cons_prefix_cons] at h
      exact absurd h.1 ha
    · by_cases h2 : x = '_'
      · subst h2
        simp [List.cons_prefix_cons] at h
        exact absurd h.1 ha
      · simp [h1, h2, List.cons_prefix_cons] at h
        exact ⟨t1, by rw [h.1], h.2⟩

/-- A dash at the head of an encoded text comes from `-`, `+` or `_`. -/
theorem encData_head_dash (w t : List Char) (h : '-' :: w <+: encData t) :
    ∃ y t1, t = y :: t1 ∧ (y = '-' ∨ y = '+' ∨ y = '_') := by
  cases t with
  | nil => simp [encData, expand] at h
  | cons x t1 =>
    rw [encData_cons] at h
    by_cases h1 : x = '+'
    · exact ⟨x, t1, rfl, Or.inr (Or.inl h1)⟩
    · by_cases h2 : x = '_'
      · exact ⟨x, t1, rfl, Or.inr (Or.inr h2)⟩
      · simp [h1, h2, List.cons_prefix_cons] at h
        exact ⟨x, t1, rfl, Or.inl h.1.symm⟩

theorem encData_plus_tail (t : List Char) (h : "plus-".data <+: encData t) :
    ∃ y t1, t = 'p' :: 'l' :: 'u' :: 's' :: y :: t1 ∧ (y = '-' ∨ y = '+' ∨ y = '_') := by
  obtain ⟨t1, rfl, h1⟩ := encData_head_plain 'p' _ t (by decide) h
  obtain ⟨t2, rfl, h2⟩ := encData_head_plain 'l' _ t1 (by decide) h1
  obtain ⟨t3, rfl, h3⟩ := encData_head_plain 'u' _ t2 (by decide) h2
  obtain ⟨t4, rfl, h4⟩ := encData_head_plain 's' _ t3 (by decide) h3
  obtain ⟨y, t5, rfl, hy⟩ := encData_head_dash _ t4 h4
  exact ⟨y, t5, rfl, hy⟩

theorem no_plus_after (x : Char) (t : List Char) (hx : x = '-' ∨ x = '_')
    (hbad : ∀ pat ∈ reservedPlus, ¬ pat.data <:+: x :: t) :
    ¬ "plus-".data <+: encData t := by
  intro h
  obtain ⟨y, t1, rfl, hy⟩ := encData_plus_tail t h
  have key : ∀ pat : String, pat ∈ reservedPlus →
      pat.data = x :: 'p' :: 'l' :: 'u' :: 's' :: [y] → False := by
    intro pat hmem heq
    apply hbad pat hmem
    rw [heq]
    exact ⟨[], t1, by simp⟩
  rcases hx with rfl | rfl <;> rcases hy with rfl | rfl | rfl
  · exact key "-plus-" (by simp [reservedPlus]) rfl
  · exact key "-plus+" (by simp [reservedPlus]) rfl
  · exact key "-plus_" (by simp [reservedPlus]) rfl
  · exact key "_plus-" (by simp [reservedPlus]) rfl
  · exact key "_plus+" (by simp [reservedPlus]) rfl
  · exact key "_plus_" (by simp [reservedPlus]) rfl

theorem reserved_tail {pats : List String} {x : Char} {t : List Char}
    (hbad : ∀ pat ∈ pats, ¬ pat.data <:+: x :: t) :
    ∀ pat ∈ pats, ¬ pat.data <:+: t :=
  fun pat hmem h => hbad pat hmem (h.trans (List.suffix_cons x t).isInfix)

/-- First decoding pass: on an encoded text, turning `-plus-` back into `+`
leaves the text with only `_` encoded. -/
theorem decodePlus_encData (v : List Char)
    (hbad : ∀ pat ∈ reservedPlus, ¬ pat.data <:+: v) :
    replaceAllAux "-plus-".data "+".data 0 (encData v) = expand '_' "-u-".data v := by
  induction v with
  | nil => rfl
  | cons x t ih =>
    have iht := ih (reserved_tail hbad)
    rw [encData_cons]
    by_cases h1 : x = '+'
    · subst h1
      have := replaceAllAux_hit '-' "plus-".data "+".data (encData t)
      rw [if_pos rfl]
      refine this.trans ?_
      show "+".data ++ replaceAllAux "-plus-".data "+".data 0 (encData t) = _
      rw [iht]
      rfl
    · by_cases h2 : x = '_'
      · subst h2
        have hno := no_plus_after '_' t (Or.inr rfl) hbad
        rw [if_neg h1, if_pos rfl]
        show replaceAllAux "-plus-".data "+".data 0 ('-' :: 'u' :: '-' :: encData t) = _
        rw [replaceAllAux_miss, replaceAllAux_miss, replaceAllAux_miss, iht]
        · rfl
        · intro h
          exact hno (List.cons_prefix_cons.mp h).2
        · intro h
          simpa using (List.cons_prefix_cons.mp h).1
        · intro h
          have := (List.cons_prefix_cons.mp ((List.cons_prefix_cons.mp h).2)).1
          simp at this
      · rw [if_neg h1, if_neg h2, List.singleton_append, replaceAllAux_miss, iht]
        · simp [expand, h2]
        · intro h
          have hx : '-' = x := (List.cons_prefix_cons.mp h).1
          subst hx
          exact no_plus_after '-' t (Or.inl rfl) hbad (List.cons_prefix_cons.mp h).2

theorem expandU_u_tail (t : List Char) (h : "u-".data <+: expand '_' "-u-".data t) :
    ∃ y t1, t = 'u' :: y :: t1 ∧ (y = '-' ∨ y = '_') := by
  cases t with
  | nil => simp [expand] at h
  | cons x t1 =>
    by_cases hx : x = '_'
    · subst hx
      simp [expand, List.cons_prefix_cons] at h
    · simp only [expand, if_neg hx, List.singleton_append] at h
      have hxu : 'u' = x := (List.cons_prefix_cons.mp h).1
      have h2 := (List.cons_prefix_cons.mp h).2
      subst hxu
      cases t1 with
      | nil => simp [expand] at h2
      | cons y t2 =>
        by_cases hy : y = '_'
        · exact ⟨y, t2, rfl, Or.inr hy⟩
        · simp only [expand, if_neg hy, List.singleton_append] at h2
          exact ⟨y, t2, rfl, Or.inl (List.cons_prefix_cons.mp h2).1.symm⟩

/-- Second decoding pass: turning `-u-` back into `_` undoes the encoding of `_`. -/
theorem decodeU_expand (v : List Char)
    (hbad : ∀ pat ∈ reservedU, ¬ pat.data <:+: v) :
    replaceAllAux "-u-".data "_".data 0 (expand '_' "-u-".data v) = v := by
  induction v with
  | nil => rfl
  | cons x t ih =>
    have iht := ih (reserved_tail hbad)
    by_cases h2 : x = '_'
    · subst h2
      have := replaceAllAux_hit '-' "u-".data "_".data (expand '_' "-u-".data t)
      show replaceAllAux "-u-".data "_".data 0 ("-u-".data ++ expand '_' "-u-".data t) = _
      refine this.trans ?_
      show "_".data ++ replaceAllAux "-u-".data "_".data 0 (expand '_' "-u-".data t) = _
      rw [iht]
      rfl
    · show replaceAllAux "-u-".data "_".data 0
        ((if x = '_' then "-u-".data else [x]) ++ expand '_' "-u-".data t) = _
      rw [if_neg h2, List.singleton_append, replaceAllAux_miss, iht]
      intro h
      have hx : '-' = x := (List.cons_prefix_cons.mp h).1
      subst hx
      obtain ⟨y, t1, rfl, hy⟩ := expandU_u_tail t (List.cons_prefix_cons.mp h).2
      have key : ∀ pat : String, pat ∈ reservedU →
          pat.data = '-' :: 'u' :: [y] → False := by
        intro pat hmem heq
        apply hbad pat hmem
        rw [heq]
        exact ⟨[], t1, by simp⟩
      rcases hy with rfl | rfl
      · exact key "-u-" (by simp [reservedU]) rfl
      · exact key "-u_" (by simp [reservedU]) rfl

/-- Claim C1 (as amended). Round trip of the version codec: for every version `v`
that contains none of `-plus-`, `-plus+`, `-plus_`, `_plus-`, `_plus+`, `_plus_`,
`-u-`, `-u_` as a substring, `URLToVersion (VersionToURL v) = v`. -/
theorem codec_round_trip (v : String)
    (h : ∀ pat ∈ reservedPlus ++ reservedU, ¬ Contains v pat) :
    URLToVersion (VersionToURL v) = v := by
  have h1 : ∀ pat ∈ reservedPlus, ¬ pat.data <:+: v.data :=
    fun pat hp => h pat (List.mem_append_left _ hp)
  have h2 : ∀ pat ∈ reservedU, ¬ pat.data <:+: v.data :=
    fun pat hp => h pat (List.mem_append_right _ hp)
  have e : (URLToVersion (VersionToURL v)).data = v.data := by
    show replaceAllAux "-u-".data "_".data 0
      (replaceAllAux "-plus-".data "+".data 0 (VersionToURL v).data) = v.data
    rw [VersionToURL_data, decodePlus_encData _ h1, decodeU_expand _ h2]
  exact String.ext e

/-- The round trip on `v1.2.3+fix6_rc-1`. -/
theorem codec_round_trip_witness :
    (∀ pat ∈ reservedPlus ++ reservedU, ¬ Contains "v1.2.3+fix6_rc-1" pat) ∧
      URLToVersion (VersionToURL "v1.2.3+fix6_rc-1") = "v1.2.3+fix6_rc-1" :=
  ⟨by decide, codec_round_trip "v1.2.3+fix6_rc-1" (by decide)⟩

/-- Claim C1 (as stated) fails: `-plus+` contains neither `-plus-` nor `-u-`, yet
it is encoded to `-plus-plus-` and decoded to `+plus-`. -/
theorem codec_round_trip_counterexample :
    ¬ Contains "-plus+" "-plus-" ∧ ¬ Contains "-plus+" "-u-" ∧
      VersionToURL "-plus+" = "-plus-plus-" ∧
      URLToVersion (VersionToURL "-plus+") = "+plus-" ∧
      URLToVersion (VersionToURL "-plus+") ≠ "-plus+" := by
  decide

/-! ## Theorems: the map built by the cascade -/

theorem foldSet_get?_of_not_mem (k : String) (cs : List ChannelType) (m : GoMap)
    (h : k ∉ cs.map (·.Name)) :
    (cs.foldl (fun m channel => m.set channel.Name channel.Version) m).get? k = m.get? k := by
  induction cs generalizing m with
  | nil => rfl
  | cons c rest ih =>
    simp only [List.map_cons, List.mem_cons, not_or] at h
    rw [List.foldl_cons, ih _ h.2]
    simp [GoMap.set, GoMap.get?, Ne.symm h.1]

theorem foldSet_get?_of_mem (k v : String) (cs : List ChannelType) (m : GoMap)
    (hnd : (cs.map (·.Name)).Nodup) (h : (⟨k, v⟩ : ChannelType) ∈ cs) :
    (cs.foldl (fun m channel => m.set channel.Name channel.Version) m).get? k = some v := by
  induction cs generalizing m with
  | nil => simp at h
  | cons c rest ih =>
    simp only [List.map_cons, List.nodup_cons] at hnd
    rw [List.foldl_cons]
    rcases List.mem_cons.mp h with hc | hr
    · subst hc
      rw [foldSet_get?_of_not_mem _ _ _ hnd.1]
      simp [GoMap.set, GoMap.get?]
    · exact ih _ hnd.2 hr

theorem foldSet_get?_some (k v : String) (cs : List ChannelType) (m : GoMap)
    (h : (cs.foldl (fun m channel => m.set channel.Name channel.Version) m).get? k = some v) :
    (∃ ch ∈ cs, ch.Name = k ∧ ch.Version = v) ∨ m.get? k = some v := by
  induction cs generalizing m with
  | nil => exact Or.inr h
  | cons c rest ih =>
    rw [List.foldl_cons] at h
    rcases ih _ h with ⟨ch, hch, hk, hv⟩ | hm
    · exact Or.inl ⟨ch, List.mem_cons_of_mem _ hch, hk, hv⟩
    · by_cases hc : c.Name = k
      · simp [GoMap.set, GoMap.get?, hc] at hm
        exact Or.inl ⟨c, List.mem_cons_self _ _, hc, hm⟩
      · simp [GoMap.set, GoMap.get?, hc] at hm
        exact Or.inr hm

theorem GoMap.get_of_get? {m : GoMap} {k v : String} (h : m.get? k = some v) :
    m.get k = v := by
  simp [GoMap.get, h]

theorem GoMap.get?_of_get_length {m : GoMap} {k : String} (h : (m.get k).length > 0) :
    m.get? k = some (m.get k) := by
  cases hg : m.get? k with
  | none => simp [GoMap.get, hg] at h
  | some v => simp [GoMap.get, hg]

/-! ## Theorems: the stability cascade -/

theorem cascadeLoop_no_entries (T G : String) (gs : List ReleaseType)
    (h : ∀ g ∈ gs, g.Name = G → g.Channels = []) :
    cascadeLoop T G gs [] = Sum.inr [] := by
  induction gs with
  | nil => rfl
  | cons g rest ih =>
    have ihr := ih (fun g1 hg1 => h g1 (List.mem_cons_of_mem _ hg1))
    by_cases hn : g.Name = G
    · have hc := h g (List.mem_cons_self _ _) hn
      simp [cascadeLoop, hn, hc, GoMap.has, GoMap.get?, ihr]
    · simp [cascadeLoop, hn, ihr]

/-- Claim C8. Cascade failure on a missing or empty group: under a threshold other
than `latest`, when every group named `G` (if any) has no channel entries,
`getVersionFromGroup` returns the empty version together with the error. -/
theorem cascade_fails_without_entries (GlobalConfig : GlobalConfigType)
    (releases : ReleasesStatusType) (G : String)
    (hT : GlobalConfig.DefaultChannel ≠ "latest")
    (h : ∀ g ∈ releases.Groups, g.Name = G → g.Channels = []) :
    getVersionFromGroup GlobalConfig releases G = ("", some (noVersionForGroupError G)) := by
  unfold getVersionFromGroup
  rw [if_neg hT]
  by_cases hl : releases.Groups.length > 0
  · simp only [hl, if_true, cascadeLoop_no_entries _ _ _ h]
    rfl
  · simp only [hl, if_false]
    rfl

/-- The cascade fails on a topology without the group and on an empty group. -/
theorem cascade_fails_without_entries_witness :
    ("ea" ≠ "latest") ∧
    (∀ g ∈ [(⟨"v1", [⟨"stable", "v1.5"⟩]⟩ : ReleaseType), ⟨"v2", []⟩],
      g.Name = "v2" → g.Channels = []) ∧
    getVersionFromGroup ⟨"v1", "ea", false, "/documentation"⟩
        ⟨[⟨"v1", [⟨"stable", "v1.5"⟩]⟩, ⟨"v2", []⟩]⟩ "v2"
      = ("", some (noVersionForGroupError "v2")) :=
  ⟨by decide, by decide,
   cascade_fails_without_entries ⟨"v1", "ea", false, "/documentation"⟩
    ⟨[⟨"v1", [⟨"stable", "v1.5"⟩]⟩, ⟨"v2", []⟩]⟩ "v2" (by decide) (by decide)⟩

theorem cascadeLoop_stable (G v : String) (g : ReleaseType) (gs : List ReleaseType)
    (m : GoMap) (hnd : (gs.map (·.Name)).Nodup) (hg : g ∈ gs) (hn : g.Name = G)
    (hch : (g.Channels.map (·.Name)).Nodup) (hv : (⟨"stable", v⟩ : ChannelType) ∈ g.Channels) :
    cascadeLoop "stable" G gs m = Sum.inl v := by
  induction gs generalizing m with
  | nil => simp at hg
  | cons h rest ih =>
    simp only [List.map_cons, List.nodup_cons] at hnd
    rcases List.mem_cons.mp hg with rfl | hr
    · have hget := foldSet_get?_of_mem "stable" v g.Channels m hch hv
      simp [cascadeLoop, hn, GoMap.has, hget, GoMap.get]
    · have hne : h.Name ≠ G := by
        intro he
        apply hnd.1
        rw [he, ← hn]
        exact List.mem_map_of_mem _ hr
      simp only [cascadeLoop, if_neg hne]
      exact ih m hnd.2 hr

/-- Claim C2 (as amended). Stable wins under the threshold `stable`: in a topology
with unique group names and at most one entry per channel in a group, for every
group `G` that has a stable entry, `getVersionFromGroup` under the default
channel `stable` succeeds and returns that entry's version. -/
theorem stable_wins_under_stable (GlobalConfig : GlobalConfigType)
    (releases : ReleasesStatusType) (G v : String) (g : ReleaseType)
    (hT : GlobalConfig.DefaultChannel = "stable") (hwf : WellFormed releases)
    (hg : g ∈ releases.Groups) (hn : g.Name = G)
    (hv : (⟨"stable", v⟩ : ChannelType) ∈ g.Channels) :
    getVersionFromGroup GlobalConfig releases G = (v, none) := by
  unfold getVersionFromGroup
  have hl : releases.Groups.length > 0 := List.length_pos_of_mem hg
  rw [hT, if_neg (by decide)]
  simp only [hl, if_true, cascadeLoop_stable G v g releases.Groups [] hwf.1 hg hn
    (hwf.2 g hg) hv]

/-- Under the threshold `stable`, stable `v1.5` wins over alpha `v1.6-alpha`. -/
theorem stable_wins_under_stable_witness :
    WellFormed ⟨[⟨"v1", [⟨"stable", "v1.5"⟩, ⟨"alpha", "v1.6-alpha"⟩]⟩]⟩ ∧
    getVersionFromGroup ⟨"v1", "stable", false, "/documentation"⟩
        ⟨[⟨"v1", [⟨"stable", "v1.5"⟩, ⟨"alpha", "v1.6-alpha"⟩]⟩]⟩ "v1" = ("v1.5", none) :=
  ⟨by decide,
   stable_wins_under_stable ⟨"v1", "stable", false, "/documentation"⟩
    ⟨[⟨"v1", [⟨"stable", "v1.5"⟩, ⟨"alpha", "v1.6-alpha"⟩]⟩]⟩ "v1" "v1.5"
    ⟨"v1", [⟨"stable", "v1.5"⟩, ⟨"alpha", "v1.6-alpha"⟩]⟩
    rfl (by decide) (by decide) rfl (by decide)⟩

/-- Claim C2 (as stated) fails: the group `v1` is the only group, it has stable
`v1.5` and alpha `v1.6-alpha`, and under the threshold `alpha` the cascade
returns `v1.6-alpha`, not the stable version. -/
theorem stable_always_wins_counterexample :
    WellFormed ⟨[⟨"v1", [⟨"stable", "v1.5"⟩, ⟨"alpha", "v1.6-alpha"⟩]⟩]⟩ ∧
    getVersionFromGroup ⟨"v1", "alpha", false, "/documentation"⟩
        ⟨[⟨"v1", [⟨"stable", "v1.5"⟩, ⟨"alpha", "v1.6-alpha"⟩]⟩]⟩ "v1"
      = ("v1.6-alpha", none) ∧
    getVersionFromGroup ⟨"v1", "alpha", false, "/documentation"⟩
        ⟨[⟨"v1", [⟨"stable", "v1.5"⟩, ⟨"alpha", "v1.6-alpha"⟩]⟩]⟩ "v1"
      ≠ ("v1.5", none) := by
  decide

theorem cascadeLoop_only_alpha (T G v : String) (g : ReleaseType)
    (hn : g.Name = G) (hc : g.Channels = [⟨"alpha", v⟩]) (gs : List ReleaseType)
    (m : GoMap) (huniq : ∀ g1 ∈ gs, g1.Name = G → g1 = g)
    (hm : m.get? "stable" = none ∧ m.get? "ea" = none ∧ m.get? "beta" = none ∧
      (m.get? "alpha" = none ∨ m.get? "alpha" = some v)) :
    cascadeLoop T G gs m = Sum.inl v ∨
      ∃ m1, cascadeLoop T G gs m = Sum.inr m1 ∧
        ((g ∈ gs ∨ m.get? "alpha" = some v) → m1.get? "alpha" = some v) := by
  induction gs generalizing m with
  | nil => exact Or.inr ⟨m, rfl, fun h => h.elim (fun h1 => by simp at h1) id⟩
  | cons h rest ih =>
    have hu := fun g1 hg1 => huniq g1 (List.mem_cons_of_mem _ hg1)
    by_cases hname : h.Name = G
    · have hg : h = g := huniq h (List.mem_cons_self _ _) hname
      subst hg
      obtain ⟨h1, h2, h3, -⟩ := hm
      have e1 : GoMap.get? (GoMap.set m "alpha" v) "stable" = none := by
        simpa [GoMap.set, GoMap.get?] using h1
      have e2 : GoMap.get? (GoMap.set m "alpha" v) "ea" = none := by
        simpa [GoMap.set, GoMap.get?] using h2
      have e3 : GoMap.get? (GoMap.set m "alpha" v) "beta" = none := by
        simpa [GoMap.set, GoMap.get?] using h3
      have e4 : GoMap.get? (GoMap.set m "alpha" v) "alpha" = some v := by
        simp [GoMap.set, GoMap.get?]
      rcases ih (GoMap.set m "alpha" v) hu ⟨e1, e2, e3, Or.inr e4⟩ with hl | ⟨m1, hm1, hal⟩
      · by_cases hT : T = "stable" ∨ T = "ea" ∨ T = "beta" ∨ T = "alpha"
        · left
          simp [cascadeLoop, hname, hc, GoMap.has, e1, e2, e3, e4, hT, GoMap.get]
        · left
          simp [cascadeLoop, hname, hc, GoMap.has, e1, e2, e3, e4, hT, hl]
      · by_cases hT : T = "stable" ∨ T = "ea" ∨ T = "beta" ∨ T = "alpha"
        · left
          simp [cascadeLoop, hname, hc, GoMap.has, e1, e2, e3, e4, hT, GoMap.get]
        · right
          refine ⟨m1, ?_, fun _ => hal (Or.inr e4)⟩
          simp [cascadeLoop, hname, hc, GoMap.has, e1, e2, e3, e4, hT, hm1]
    · simp only [cascadeLoop, if_neg hname]
      rcases ih m hu hm with hl | ⟨m1, hm1, hal⟩
      · exact Or.inl hl
      · refine Or.inr ⟨m1, hm1, fun hor => hal ?_⟩
        rcases hor with hmem | hmv
        · rcases List.mem_cons.mp hmem with rfl | hr
          · exact absurd hn hname
          · exact Or.inl hr
        · exact Or.inr hmv

theorem length_pos_of_ne_empty (v : String) (h : v ≠ "") : v.length > 0 := by
  cases v with
  | mk d =>
    cases d with
    | nil => exact absurd rfl h
    | cons c t => simp [String.length]

/-- Claim C7. Alpha last-resort fallback: under every threshold other than
`latest`, documented or not, when the only group named `G` has the single entry
alpha with a non-empty version `v`, `getVersionFromGroup` succeeds and returns
`v`. -/
theorem alpha_last_resort (GlobalConfig : GlobalConfigType)
    (releases : ReleasesStatusType) (G v : String) (g : ReleaseType)
    (hT : GlobalConfig.DefaultChannel ≠ "latest")
    (hg : g ∈ releases.Groups) (hn : g.Name = G) (hc : g.Channels = [⟨"alpha", v⟩])
    (huniq : ∀ g1 ∈ releases.Groups, g1.Name = G → g1 = g) (hv : v ≠ "") :
    getVersionFromGroup GlobalConfig releases G = (v, none) := by
  unfold getVersionFromGroup
  have hl : releases.Groups.length > 0 := List.length_pos_of_mem hg
  rw [if_neg hT]
  simp only [hl, if_true]
  rcases cascadeLoop_only_alpha GlobalConfig.DefaultChannel G v g hn hc releases.Groups []
      huniq ⟨rfl, rfl, rfl, Or.inl rfl⟩ with h1 | ⟨m1, h1, hal⟩
  · rw [h1]
  · rw [h1]
    have hget := GoMap.get_of_get? (hal (Or.inl hg))
    simp only [hget, length_pos_of_ne_empty v hv, if_true]

/-- Thresholds `ea` and `nightly` with only alpha `v1.10-alpha1` in `v1`. -/
theorem alpha_last_resort_witness :
    ("nightly" ≠ "latest") ∧
    (∀ g1 ∈ [(⟨"v1", [⟨"alpha", "v1.10-alpha1"⟩]⟩ : ReleaseType), ⟨"v2", []⟩],
      g1.Name = "v1" → g1 = ⟨"v1", [⟨"alpha", "v1.10-alpha1"⟩]⟩) ∧
    getVersionFromGroup ⟨"v1", "nightly", false, "/documentation"⟩
        ⟨[⟨"v1", [⟨"alpha", "v1.10-alpha1"⟩]⟩, ⟨"v2", []⟩]⟩ "v1" = ("v1.10-alpha1", none) :=
  ⟨by decide, by decide,
   alpha_last_resort ⟨"v1", "nightly", false, "/documentation"⟩
    ⟨[⟨"v1", [⟨"alpha", "v1.10-alpha1"⟩]⟩, ⟨"v2", []⟩]⟩ "v1" "v1.10-alpha1"
    ⟨"v1", [⟨"alpha", "v1.10-alpha1"⟩]⟩ (by decide) (by decide) rfl rfl (by decide)
    (by decide)⟩

theorem cascadeLoop_sound (all : List ReleaseType) (T G : String) (gs : List ReleaseType)
    (m : GoMap) (hsub : ∀ g ∈ gs, g ∈ all) (hm : FromGroup all G m) :
    (∀ w, cascadeLoop T G gs m = Sum.inl w →
      ∃ g ∈ all, g.Name = G ∧ ∃ ch ∈ g.Channels, ch.Version = w ∧
        atLeastAsStable T ch.Name = true) ∧
    (∀ m1, cascadeLoop T G gs m = Sum.inr m1 → FromGroup all G m1) := by
  induction gs generalizing m with
  | nil =>
    refine ⟨fun w h => by simp [cascadeLoop] at h, fun m1 h => ?_⟩
    simp only [cascadeLoop, Sum.inr.injEq] at h
    exact h ▸ hm
  | cons h rest ih =>
    have hs := fun g hg => hsub g (List.mem_cons_of_mem _ hg)
    by_cases hname : h.Name = G
    · have hm1 : FromGroup all G
          (h.Channels.foldl (fun m channel => m.set channel.Name channel.Version) m) := by
        intro k w hk
        rcases foldSet_get?_some k w h.Channels m hk with ⟨ch, hch, hk1, hv1⟩ | hold
        · exact ⟨h, hsub h (List.mem_cons_self _ _), hname, ch, hch, hk1, hv1⟩
        · exact hm k w hold
      have pick : ∀ (k w : String),
          (h.Channels.foldl (fun m channel => m.set channel.Name channel.Version) m).has k
            = true →
          atLeastAsStable T k = true →
          Sum.inl ((h.Channels.foldl
            (fun m channel => m.set channel.Name channel.Version) m).get k)
            = (Sum.inl w : String ⊕ GoMap) →
          ∃ g ∈ all, g.Name = G ∧ ∃ ch ∈ g.Channels, ch.Version = w ∧
            atLeastAsStable T ch.Name = true := by
        intro k w hhas hst heq
        simp only [GoMap.has, Option.isSome_iff_exists] at hhas
        obtain ⟨w0, hw0⟩ := hhas
        rw [GoMap.get_of_get? hw0] at heq
        obtain ⟨g, hg, hgn, ch, hch, hck, hcv⟩ := hm1 k w0 hw0
        simp only [Sum.inl.injEq] at heq
        exact ⟨g, hg, hgn, ch, hch, heq ▸ hcv, hck ▸ hst⟩
      simp only [cascadeLoop, if_pos hname]
      split_ifs with c1 c2 c3 c4
      · refine ⟨fun w hw => pick "stable" w c1.1 ?_ hw, fun m1 h1 => by simp at h1⟩
        rw [c1.2]; decide
      · refine ⟨fun w hw => pick "ea" w c2.1 ?_ hw, fun m1 h1 => by simp at h1⟩
        rcases c2.2 with e | e <;> rw [e] <;> decide
      · refine ⟨fun w hw => pick "beta" w c3.1 ?_ hw, fun m1 h1 => by simp at h1⟩
        rcases c3.2 with e | e | e <;> rw [e] <;> decide
      · refine ⟨fun w hw => pick "alpha" w c4.1 ?_ hw, fun m1 h1 => by simp at h1⟩
        rcases c4.2 with e | e | e | e <;> rw [e] <;> decide
      · exact ih _ hs hm1
    · simp only [cascadeLoop, if_neg hname]
      exact ih m hs hm

/-- Claim C4 (as amended). The cascade never surfaces a channel more stable than
the configured default: for every topology, group `G` and threshold `T` among
stable, ea, beta, alpha, whenever `getVersionFromGroup` succeeds, the returned
version is recorded in a group named `G` for a channel among stable, ea, beta,
alpha that is at most as stable as `T` (that is, `T` is at least as stable as
that channel). -/
theorem cascade_not_more_stable (GlobalConfig : GlobalConfigType)
    (releases : ReleasesStatusType) (G w : String)
    (hT : GlobalConfig.DefaultChannel ∈ ["stable", "ea", "beta", "alpha"])
    (h : getVersionFromGroup GlobalConfig releases G = (w, none)) :
    ∃ g ∈ releases.Groups, g.Name = G ∧ ∃ ch ∈ g.Channels, ch.Version = w ∧
      atLeastAsStable GlobalConfig.DefaultChannel ch.Name = true := by
  have hnl : GlobalConfig.DefaultChannel ≠ "latest" := by
    intro e; rw [e] at hT; revert hT; decide
  have hempty : FromGroup releases.Groups G [] := fun k w0 hk => by
    simp [GoMap.get?] at hk
  unfold getVersionFromGroup at h
  rw [if_neg hnl] at h
  have fallback : ∀ m : GoMap, FromGroup releases.Groups G m →
      (if (m.get "alpha").length > 0 then (m.get "alpha", (none : Option String))
        else ("", some (noVersionForGroupError G))) = (w, none) →
      ∃ g ∈ releases.Groups, g.Name = G ∧ ∃ ch ∈ g.Channels, ch.Version = w ∧
        atLeastAsStable GlobalConfig.DefaultChannel ch.Name = true := by
    intro m hm hres
    split_ifs at hres with hlen
    · have hget := GoMap.get?_of_get_length hlen
      obtain ⟨g, hg, hgn, ch, hch, hck, hcv⟩ := hm _ _ hget
      simp only [Prod.mk.injEq, and_true] at hres
      refine ⟨g, hg, hgn, ch, hch, hcv.trans hres, ?_⟩
      rw [hck]
      simp only [List.mem_cons, List.mem_singleton, List.not_mem_nil, or_false] at hT
      rcases hT with e | e | e | e <;> rw [e] <;> decide
    · simp at hres
  by_cases hl : releases.Groups.length > 0
  · simp only [hl, if_true] at h
    have hs := cascadeLoop_sound releases.Groups GlobalConfig.DefaultChannel G
      releases.Groups [] (fun g hg => hg) hempty
    cases hloop : cascadeLoop GlobalConfig.DefaultChannel G releases.Groups [] with
    | inl w0 =>
      rw [hloop] at h
      simp only [Prod.mk.injEq, and_true] at h
      exact hs.1 w (h ▸ hloop)
    | inr m1 =>
      rw [hloop] at h
      exact fallback m1 (hs.2 m1 hloop) h
  · simp only [hl, if_false] at h
    exact fallback [] hempty h

/-- Threshold `ea`, group `v1` with stable `v1.5` and beta `v1.6-beta1`: the
cascade returns the beta version. -/
theorem cascade_not_more_stable_witness :
    ("ea" ∈ ["stable", "ea", "beta", "alpha"]) ∧
    getVersionFromGroup ⟨"v1", "ea", false, "/documentation"⟩
        ⟨[⟨"v1", [⟨"stable", "v1.5"⟩, ⟨"beta", "v1.6-beta1"⟩]⟩]⟩ "v1"
      = ("v1.6-beta1", none) ∧
    ∃ g ∈ [(⟨"v1", [⟨"stable", "v1.5"⟩, ⟨"beta", "v1.6-beta1"⟩]⟩ : ReleaseType)],
      g.Name = "v1" ∧ ∃ ch ∈ g.Channels, ch.Version = "v1.6-beta1" ∧
        atLeastAsStable "ea" ch.Name = true :=
  ⟨by decide, by decide,
   cascade_not_more_stable ⟨"v1", "ea", false, "/documentation"⟩
    ⟨[⟨"v1", [⟨"stable", "v1.5"⟩, ⟨"beta", "v1.6-beta1"⟩]⟩]⟩ "v1" "v1.6-beta1"
    (by decide) (by decide)⟩

/-- Claim C4 (as stated) fails: under the threshold `stable`, the group `v1` with
the single entry alpha `v1.10-alpha1` resolves to `v1.10-alpha1`, and no entry
of `v1` with that version belongs to a channel at least as stable as `stable`. -/
theorem cascade_threshold_counterexample :
    getVersionFromGroup ⟨"v1", "stable", false, "/documentation"⟩
        ⟨[⟨"v1", [⟨"alpha", "v1.10-alpha1"⟩]⟩]⟩ "v1" = ("v1.10-alpha1", none) ∧
    ¬ ∃ g ∈ [(⟨"v1", [⟨"alpha", "v1.10-alpha1"⟩]⟩ : ReleaseType)],
      g.Name = "v1" ∧ ∃ ch ∈ g.Channels, ch.Version = "v1.10-alpha1" ∧
        atLeastAsStable ch.Name "stable" = true := by
  decide

/-! ## Theorems: exact lookup -/

theorem findChannelVersion_eq (c : String) (cs : List ChannelType) :
    findChannelVersion c cs = ((cs.filter (fun ch => ch.Name = c)).head?).map (·.Version) := by
  induction cs with
  | nil => rfl
  | cons ch rest ih =>
    by_cases h : ch.Name = c
    · simp [findChannelVersion, h]
    · simp [findChannelVersion, h, ih]

theorem findGroupChannelVersion_eq (c g : String) (gs : List ReleaseType) :
    findGroupChannelVersion c g gs =
      ((((gs.filter (fun r => r.Name = g)).map
        (fun r => r.Channels.filter (fun ch => ch.Name = c))).flatten).head?).map
          (·.Version) := by
  induction gs with
  | nil => rfl
  | cons r rest ih =>
    by_cases h : r.Name = g
    · simp only [findGroupChannelVersion, if_pos h, findChannelVersion_eq, ih]
      cases hf : r.Channels.filter (fun ch => ch.Name = c) with
      | nil => simp [h, hf]
      | cons e es => simp [h, hf]
    · simp [findGroupChannelVersion, h, ih]

theorem matchingEntries_ne_nil_iff (releases : ReleasesStatusType) (c g : String) :
    matchingEntries releases c g ≠ [] ↔
      ∃ grp ∈ releases.Groups, grp.Name = g ∧ ∃ ch ∈ grp.Channels, ch.Name = c := by
  constructor
  · intro h
    obtain ⟨e, he⟩ := List.exists_mem_of_ne_nil _ h
    simp only [matchingEntries, List.mem_flatten, List.mem_map, List.mem_filter,
      decide_eq_true_eq] at he
    obtain ⟨l, ⟨grp, ⟨hgrp, hname⟩, rfl⟩, hel⟩ := he
    simp only [List.mem_filter, decide_eq_true_eq] at hel
    exact ⟨grp, hgrp, hname, e, hel.1, hel.2⟩
  · rintro ⟨grp, hgrp, hname, ch, hch, hcn⟩
    apply List.ne_nil_of_mem (a := ch)
    simp only [matchingEntries, List.mem_flatten, List.mem_map, List.mem_filter,
      decide_eq_true_eq]
    exact ⟨_, ⟨grp, ⟨hgrp, hname⟩, rfl⟩, by simp [hch, hcn]⟩

/-- Claim C9. Exact lookup fails iff the entry is absent:
`getVersionFromChannelAndGroup` returns without error exactly when the topology
has a group named `g` with an entry for channel `c`; it then returns the version
of the first such entry in topology order, and otherwise the empty version
together with the error. -/
theorem exact_lookup (releases : ReleasesStatusType) (c g : String) :
    ((getVersionFromChannelAndGroup releases c g).2 = none ↔
      ∃ grp ∈ releases.Groups, grp.Name = g ∧ ∃ ch ∈ grp.Channels, ch.Name = c) ∧
    (∀ e rest, matchingEntries releases c g = e :: rest →
      getVersionFromChannelAndGroup releases c g = (e.Version, none)) ∧
    (matchingEntries releases c g = [] →
      getVersionFromChannelAndGroup releases c g
        = ("", some (noMatchingVersionError g c))) := by
  have key : findGroupChannelVersion c g releases.Groups
      = ((matchingEntries releases c g).head?).map (·.Version) :=
    findGroupChannelVersion_eq c g releases.Groups
  have hiff := matchingEntries_ne_nil_iff releases c g
  unfold getVersionFromChannelAndGroup
  rw [key]
  cases hme : matchingEntries releases c g with
  | nil =>
    rw [hme] at hiff
    refine ⟨?_, fun e rest h => by simp at h, fun _ => rfl⟩
    simp only [List.head?_nil, Option.map_none']
    constructor
    · intro h; simp at h
    · intro h; exact absurd rfl (hiff.mpr h)
  | cons e rest =>
    rw [hme] at hiff
    refine ⟨?_, fun e1 rest1 h => ?_, fun h => by simp at h⟩
    · simp only [List.head?_cons, Option.map_some']
      exact ⟨fun _ => hiff.mp (by simp), fun _ => by first | rfl | trivial⟩
    · simp only [List.cons.injEq] at h
      simp [h.1]

/-! ## Theorems: group ordering -/

theorem insertLeft_perm {α : Type} (less : α → α → Bool) (x : α) (l : List α) :
    (insertLeft less x l).Perm (x :: l) := by
  induction l with
  | nil => exact List.Perm.refl _
  | cons y ys ih =>
    unfold insertLeft
    split_ifs
    · exact (List.Perm.cons y ih).trans (List.Perm.swap x y ys)
    · exact List.Perm.refl _

theorem foldl_insertLeft_perm {α : Type} (less : α → α → Bool) (data done : List α) :
    (data.foldl (fun done x => insertLeft less x done) done).Perm (data.reverse ++ done) := by
  induction data generalizing done with
  | nil => exact List.Perm.refl _
  | cons x t ih =>
    rw [List.foldl_cons, List.reverse_cons, List.append_assoc]
    exact (ih _).trans (List.Perm.append_left _ (insertLeft_perm less x done))

theorem sortSlice_perm {α : Type} (less : α → α → Bool) (data : List α) :
    (sortSlice less data).Perm data := by
  unfold sortSlice
  refine (List.reverse_perm _).trans ((foldl_insertLeft_perm less data []).trans ?_)
  rw [List.append_nil]
  exact List.reverse_perm _

theorem mem_getGroups (fm : Float64Model) (ReleasesStatus : ReleasesStatusType)
    (name : String) :
    name ∈ getGroups fm ReleasesStatus ↔ ∃ g ∈ ReleasesStatus.Groups, g.Name = name := by
  unfold getGroups
  rw [(sortSlice_perm _ _).mem_iff]
  simp

theorem foldl_insertLeft_never {α : Type} (less : α → α → Bool) (data done : List α)
    (h : ∀ x ∈ data, ∀ y ∈ data ++ done, less x y = false) :
    data.foldl (fun done x => insertLeft less x done) done = data.reverse ++ done := by
  induction data generalizing done with
  | nil => rfl
  | cons x t ih =>
    have e : insertLeft less x done = x :: done := by
      cases done with
      | nil => rfl
      | cons y ys =>
        have := h x (List.mem_cons_self _ _) y (by simp)
        simp [insertLeft, this]
    rw [List.foldl_cons, e, ih]
    · simp
    · intro a ha y hy
      refine h a (List.mem_cons_of_mem _ ha) y ?_
      simp only [List.mem_append, List.mem_cons] at hy ⊢
      tauto

theorem parseFloat_v (fm : Float64Model) (s : String) (t : List Char)
    (h : s.data = 'v' :: t) : parseFloat fm s = none := by
  unfold parseFloat
  rw [h]
  have : 'v' ∉ floatFirstBytes := by decide
  simp [this]

/-- When every group name starts with the letter `v`, as `v1` and `v10` do, no
name is read as a number and `getGroups` returns the names in file order. -/
theorem getGroups_of_v_names (fm : Float64Model) (ReleasesStatus : ReleasesStatusType)
    (h : ∀ g ∈ ReleasesStatus.Groups, ∃ t, g.Name.data = 'v' :: t) :
    getGroups fm ReleasesStatus = ReleasesStatus.Groups.map (fun item => item.Name) := by
  simp only [getGroups, sortSlice]
  rw [foldl_insertLeft_never]
  · simp
  · intro x hx y hy
    simp only [List.append_nil, List.mem_map] at hx hy
    obtain ⟨g1, hg1, rfl⟩ := hx
    obtain ⟨g2, hg2, rfl⟩ := hy
    obtain ⟨t1, ht1⟩ := h g1 hg1
    obtain ⟨t2, ht2⟩ := h g2 hg2
    simp [groupLess, floatOrZero, parseFloat_v fm _ _ ht1, parseFloat_v fm _ _ ht2,
      fm.gt_zero_zero]

/-- Claim C3 (the code at the failing input). For the groups named `v1`, `v10`,
`v2`, in that order, `getGroups` returns them in that same order: every name is
rejected by `ParseFloat`, every key is zero, and no element is moved. -/
theorem getGroups_v1_v10_v2 (fm : Float64Model) :
    getGroups fm ⟨[⟨"v1", []⟩, ⟨"v10", []⟩, ⟨"v2", []⟩]⟩ = ["v1", "v10", "v2"] ∧
    getGroups fm ⟨[⟨"v1", []⟩, ⟨"v10", []⟩, ⟨"v2", []⟩]⟩ ≠ ["v10", "v2", "v1"] := by
  have e : getGroups fm ⟨[⟨"v1", []⟩, ⟨"v10", []⟩, ⟨"v2", []⟩]⟩ = ["v1", "v10", "v2"] := by
    have h1 := parseFloat_v fm "v1" _ rfl
    have h2 := parseFloat_v fm "v10" _ rfl
    have h3 := parseFloat_v fm "v2" _ rfl
    simp [getGroups, sortSlice, insertLeft, groupLess, floatOrZero, h1, h2, h3,
      fm.gt_zero_zero]
  refine ⟨e, ?_⟩
  rw [e]
  decide

/-! ## Theorems: the bare-group pattern -/

theorem many_then_eof {β : Type} (p : Char → Bool) (f : List Char → β) (t : List Char) :
    (Matcher.many p t).flatMap (fun r => if r.2 = [] then [f r.1] else [])
      = if t.all p then [f t] else [] := by
  induction t generalizing f with
  | nil => simp [Matcher.many]
  | cons c t ih =>
    by_cases hc : p c = true
    · simp only [Matcher.many, hc, if_true, List.flatMap_append, List.flatMap_map]
      have := ih (fun l => f (c :: l))
      simp only [] at this
      simp [this, hc]
    · simp [Matcher.many, hc]

theorem lit_single_eq (a : Char) (t : List Char) :
    Matcher.lit [a] (a :: t) = [([a], t)] := by
  simp [Matcher.lit]

theorem lit_single_ne (a c : Char) (t : List Char) (h : c ≠ a) :
    Matcher.lit [a] (c :: t) = [] := by
  have : (a == c) = false := by
    rw [beq_eq_false_iff_ne]
    exact fun e => h e.symm
  simp [Matcher.lit, List.isPrefixOf, this]

theorem lit_nil_text (a : Char) : Matcher.lit [a] [] = [] := by
  simp [Matcher.lit, List.isPrefixOf]

theorem many1_cons_pos (p : Char → Bool) (d : Char) (ds : List Char) (h : p d = true) :
    Matcher.many1 p (d :: ds) = (Matcher.many p ds).map (fun r => (d :: r.1, r.2)) := by
  simp only [Matcher.many1, Matcher.bind, Matcher.cls, h, if_true, List.flatMap_cons,
    List.flatMap_nil, List.append_nil, Matcher.pure]
  induction Matcher.many p ds with
  | nil => rfl
  | cons r rs ih => simp [List.flatMap_cons, ih]

theorem many1_cons_neg (p : Char → Bool) (d : Char) (ds : List Char) (h : ¬ p d = true) :
    Matcher.many1 p (d :: ds) = [] := by
  simp [Matcher.many1, Matcher.bind, Matcher.cls, h]

theorem many1_nil (p : Char → Bool) : Matcher.many1 p [] = [] := by
  simp [Matcher.many1, Matcher.bind, Matcher.cls]

theorem reBareGroup_eq (cs : List Char) :
    reBareGroup cs = if isBareGroup ⟨cs⟩ then [(⟨cs⟩, [])] else [] := by
  cases cs with
  | nil => simp [reBareGroup, Matcher.bind, lit_nil_text, isBareGroup]
  | cons c t =>
    by_cases hc : c = 'v'
    · subst hc
      cases t with
      | nil =>
        simp [reBareGroup, Matcher.bind, lit_single_eq, isBareGroup, many1_nil]
      | cons d ds =>
        by_cases hd : isDigit09 d = true
        · have key := many_then_eof isDigit09
            (fun l => ((⟨'v' :: d :: l⟩ : String), ([] : List Char))) ds
          have hb : isBareGroup ⟨'v' :: d :: ds⟩ = ds.all isDigit09 := by
            simp [isBareGroup, hd]
          rw [hb, ← key]
          simp only [reBareGroup, Matcher.bind, lit_single_eq, List.flatMap_cons,
            List.flatMap_nil, List.append_nil, many1_cons_pos _ _ _ hd, List.flatMap_map]
          congr 1
          funext r
          by_cases hr : r.2 = []
          · simp [Matcher.eof, Matcher.pure, hr]
          · simp [Matcher.eof, Matcher.pure, hr]
        · have hb : isBareGroup ⟨'v' :: d :: ds⟩ = false := by
            simp [isBareGroup, hd]
          simp [reBareGroup, Matcher.bind, lit_single_eq, many1_cons_neg _ _ _ hd, hb]
    · have hb : isBareGroup ⟨c :: t⟩ = false := by
        unfold isBareGroup
        split
        · rename_i heq
          simp only [List.cons.injEq] at heq
          exact absurd heq.1 hc
        · rfl
      simp [reBareGroup, Matcher.bind, lit_single_ne _ _ _ hc, hb]

/-- The pattern `^(v[0-9]+)$` matches exactly the texts of the bare-group form,
and its capture is the whole text. -/
theorem findSubmatch_reBareGroup (version : String) :
    findSubmatch reBareGroup version = if isBareGroup version then some version else none := by
  unfold findSubmatch
  rw [reBareGroup_eq]
  by_cases h : isBareGroup version = true
  · have h2 : isBareGroup ⟨version.data⟩ = true := h
    simp [h, h2]
  · have h2 : ¬ isBareGroup ⟨version.data⟩ = true := h
    simp [h, h2]

/-! ## Theorems: reverse lookup -/

theorem versionRecorded_iff (releases : ReleasesStatusType) (v c g : String) :
    versionRecorded releases v c g = true ↔
      ∃ grp ∈ releases.Groups, grp.Name = g ∧
        ∃ ch ∈ grp.Channels, ch.Name = c ∧ ch.Version = v := by
  simp [versionRecorded, List.any_eq_true]

theorem scanChannels_some (releases : ReleasesStatusType) (v g : String)
    (cl : List String) (r : String × String) (h : scanChannels releases v g cl = some r) :
    ∃ c ∈ cl, r = (c, g) ∧ versionRecorded releases v c g = true := by
  induction cl with
  | nil => simp [scanChannels] at h
  | cons c rest ih =>
    by_cases hv : versionRecorded releases v c g = true
    · simp only [scanChannels, hv, if_true, Option.some.injEq] at h
      exact ⟨c, List.mem_cons_self _ _, h.symm, hv⟩
    · simp only [scanChannels, hv, if_false] at h
      obtain ⟨c1, hc1, hr, hv1⟩ := ih h
      exact ⟨c1, List.mem_cons_of_mem _ hc1, hr, hv1⟩

theorem scanChannels_none (releases : ReleasesStatusType) (v g : String)
    (cl : List String) (h : scanChannels releases v g cl = none) :
    ∀ c ∈ cl, versionRecorded releases v c g = false := by
  induction cl with
  | nil => simp
  | cons c rest ih =>
    by_cases hv : versionRecorded releases v c g = true
    · simp [scanChannels, hv] at h
    · simp only [scanChannels, hv, if_false] at h
      intro c1 hc1
      rcases List.mem_cons.mp hc1 with rfl | hr
      · simpa using hv
      · exact ih h c1 hr

theorem scanGroups_some (releases : ReleasesStatusType) (v : String)
    (gl : List String) (r : String × String) (h : scanGroups releases v gl = some r) :
    ∃ g ∈ gl, ∃ c ∈ channelsListReverseStability,
      r = (c, g) ∧ versionRecorded releases v c g = true := by
  induction gl with
  | nil => simp [scanGroups] at h
  | cons g rest ih =>
    cases hs : scanChannels releases v g channelsListReverseStability with
    | some found =>
      simp only [scanGroups, hs, Option.some.injEq] at h
      obtain ⟨c, hc, hr, hv⟩ := scanChannels_some releases v g _ found hs
      exact ⟨g, List.mem_cons_self _ _, c, hc, h ▸ hr, hv⟩
    | none =>
      simp only [scanGroups, hs] at h
      obtain ⟨g1, hg1, rest1⟩ := ih h
      exact ⟨g1, List.mem_cons_of_mem _ hg1, rest1⟩

theorem scanGroups_none (releases : ReleasesStatusType) (v : String)
    (gl : List String) (h : scanGroups releases v gl = none) :
    ∀ g ∈ gl, ∀ c ∈ channelsListReverseStability,
      versionRecorded releases v c g = false := by
  induction gl with
  | nil => simp
  | cons g rest ih =>
    cases hs : scanChannels releases v g channelsListReverseStability with
    | some found => simp [scanGroups, hs] at h
    | none =>
      simp only [scanGroups, hs] at h
      intro g1 hg1
      rcases List.mem_cons.mp hg1 with rfl | hr
      · exact scanChannels_none releases v g1 _ hs
      · exact ih h g1 hr

/-- The scan finds a recorded version: when some group of the topology records
`v` under a channel of `channelsListReverseStability`, the lookup of a version
that is not a bare group returns a channel and a group recording `v`. -/
theorem reverse_lookup_finds (fm : Float64Model) (releases : ReleasesStatusType)
    (v c : String) (g : ReleaseType) (ch : ChannelType)
    (hbare : isBareGroup v = false) (hc : c ∈ channelsListReverseStability)
    (hg : g ∈ releases.Groups) (hch : ch ∈ g.Channels)
    (hname : ch.Name = c) (hver : ch.Version = v) :
    ∃ c1 g1, getChannelAndGroupFromVersion fm releases releases v = (c1, g1) ∧
      c1 ∈ channelsListReverseStability ∧ versionRecorded releases v c1 g1 = true := by
  unfold getChannelAndGroupFromVersion
  rw [findSubmatch_reBareGroup, hbare]
  simp only [Bool.false_eq_true, if_false]
  cases hs : scanGroups releases v (getGroups fm releases) with
  | some found =>
    obtain ⟨g1, -, c1, hc1, hr, hv⟩ := scanGroups_some releases v _ found hs
    exact ⟨c1, g1, hr, hc1, hv⟩
  | none =>
    have hmem : g.Name ∈ getGroups fm releases :=
      (mem_getGroups fm releases g.Name).mpr ⟨g, hg, rfl⟩
    have hno := scanGroups_none releases v _ hs g.Name hmem c hc
    have hyes : versionRecorded releases v c g.Name = true :=
      (versionRecorded_iff releases v c g.Name).mpr ⟨g, hg, rfl, ch, hch, hname, hver⟩
    rw [hyes] at hno
    exact absurd hno (by decide)

/-- Claim C5. Reverse lookup of an exact version: when `v` is not of the
bare-group form and is recorded for channel `c` among stable, ea, beta, alpha of
group `g` and for no entry of another group or channel name,
`getChannelAndGroupFromVersion` returns `(c, g)`. -/
theorem reverse_lookup_exact (fm : Float64Model) (releases : ReleasesStatusType)
    (v c : String) (g : ReleaseType) (ch : ChannelType)
    (hbare : isBareGroup v = false) (hc : c ∈ ["stable", "ea", "beta", "alpha"])
    (hg : g ∈ releases.Groups) (hch : ch ∈ g.Channels)
    (hname : ch.Name = c) (hver : ch.Version = v)
    (honly : ∀ g1 ∈ releases.Groups, ∀ ch1 ∈ g1.Channels, ch1.Version = v →
      g1.Name = g.Name ∧ ch1.Name = c) :
    getChannelAndGroupFromVersion fm releases releases v = (c, g.Name) := by
  have hc2 : c ∈ channelsListReverseStability := by
    simp only [List.mem_cons, List.mem_singleton, List.not_mem_nil, or_false] at hc
    rcases hc with e | e | e | e <;> rw [e] <;> decide
  obtain ⟨c1, g1, hr, -, hv⟩ := reverse_lookup_finds fm releases v c g ch hbare hc2 hg hch
    hname hver
  obtain ⟨grp, hgrp, hgn, ch1, hch1, hcn, hcv⟩ := (versionRecorded_iff releases v c1 g1).mp hv
  obtain ⟨e1, e2⟩ := honly grp hgrp ch1 hch1 hcv
  rw [hr, ← hgn, ← hcn, e1, e2]

/-- Group `v1` with beta `v1.3.0-beta2` gives `("beta", "v1")`. -/
theorem reverse_lookup_exact_witness :
    isBareGroup "v1.3.0-beta2" = false ∧
    (∀ g1 ∈ [(⟨"v2", [⟨"stable", "v2.0.1"⟩]⟩ : ReleaseType),
        ⟨"v1", [⟨"stable", "v1.2.9"⟩, ⟨"beta", "v1.3.0-beta2"⟩]⟩],
      ∀ ch1 ∈ g1.Channels, ch1.Version = "v1.3.0-beta2" →
        g1.Name = "v1" ∧ ch1.Name = "beta") ∧
    getChannelAndGroupFromVersion decimalModel
      ⟨[⟨"v2", [⟨"stable", "v2.0.1"⟩]⟩,
        ⟨"v1", [⟨"stable", "v1.2.9"⟩, ⟨"beta", "v1.3.0-beta2"⟩]⟩]⟩
      ⟨[⟨"v2", [⟨"stable", "v2.0.1"⟩]⟩,
        ⟨"v1", [⟨"stable", "v1.2.9"⟩, ⟨"beta", "v1.3.0-beta2"⟩]⟩]⟩
      "v1.3.0-beta2" = ("beta", "v1") :=
  ⟨by decide, by decide,
   reverse_lookup_exact decimalModel
    ⟨[⟨"v2", [⟨"stable", "v2.0.1"⟩]⟩,
      ⟨"v1", [⟨"stable", "v1.2.9"⟩, ⟨"beta", "v1.3.0-beta2"⟩]⟩]⟩
    "v1.3.0-beta2" "beta" ⟨"v1", [⟨"stable", "v1.2.9"⟩, ⟨"beta", "v1.3.0-beta2"⟩]⟩
    ⟨"beta", "v1.3.0-beta2"⟩ (by decide) (by decide) (by decide) (by decide) rfl rfl
    (by decide)⟩

/-- Claim C6 (as amended). The reverse-lookup scan includes rock-solid: when `v`
is not of the bare-group form, is recorded in the topology, and is recorded only
under rock-solid entries, `getChannelAndGroupFromVersion` returns the channel
`rock-solid` together with a group that records `v` under rock-solid. -/
theorem reverse_lookup_rock_solid (fm : Float64Model) (releases : ReleasesStatusType)
    (v : String) (hbare : isBareGroup v = false)
    (hex : ∃ g ∈ releases.Groups, ∃ ch ∈ g.Channels, ch.Version = v)
    (honly : ∀ g ∈ releases.Groups, ∀ ch ∈ g.Channels, ch.Version = v →
      ch.Name = "rock-solid") :
    ∃ g ∈ releases.Groups,
      (∃ ch ∈ g.Channels, ch.Name = "rock-solid" ∧ ch.Version = v) ∧
      getChannelAndGroupFromVersion fm releases releases v = ("rock-solid", g.Name) := by
  obtain ⟨g, hg, ch, hch, hver⟩ := hex
  have hname := honly g hg ch hch hver
  obtain ⟨c1, g1, hr, -, hv⟩ := reverse_lookup_finds fm releases v "rock-solid" g ch hbare
    (by decide) hg hch hname hver
  obtain ⟨grp, hgrp, hgn, ch1, hch1, hcn, hcv⟩ := (versionRecorded_iff releases v c1 g1).mp hv
  have e := honly grp hgrp ch1 hch1 hcv
  refine ⟨grp, hgrp, ⟨ch1, hch1, e, hcv⟩, ?_⟩
  rw [hr, ← hgn, ← hcn, e]

/-- Group `v1` with the single entry rock-solid `v1.0.7`. -/
theorem reverse_lookup_rock_solid_witness :
    isBareGroup "v1.0.7" = false ∧
    (∃ g ∈ [(⟨"v1", [⟨"rock-solid", "v1.0.7"⟩, ⟨"stable", "v1.1.2"⟩]⟩ : ReleaseType)],
      ∃ ch ∈ g.Channels, ch.Version = "v1.0.7") ∧
    ∃ g ∈ [(⟨"v1", [⟨"rock-solid", "v1.0.7"⟩, ⟨"stable", "v1.1.2"⟩]⟩ : ReleaseType)],
      (∃ ch ∈ g.Channels, ch.Name = "rock-solid" ∧ ch.Version = "v1.0.7") ∧
      getChannelAndGroupFromVersion decimalModel
        ⟨[⟨"v1", [⟨"rock-solid", "v1.0.7"⟩, ⟨"stable", "v1.1.2"⟩]⟩]⟩
        ⟨[⟨"v1", [⟨"rock-solid", "v1.0.7"⟩, ⟨"stable", "v1.1.2"⟩]⟩]⟩ "v1.0.7"
        = ("rock-solid", g.Name) :=
  ⟨by decide, by decide,
   reverse_lookup_rock_solid decimalModel
    ⟨[⟨"v1", [⟨"rock-solid", "v1.0.7"⟩, ⟨"stable", "v1.1.2"⟩]⟩]⟩ "v1.0.7"
    (by decide) (by decide) (by decide)⟩

/-- Claim C6 (as stated) fails: `v1.0.7` is recorded only under the rock-solid
entry of `v1`, and the lookup returns the channel `rock-solid` with the group
`v1`, not two empty strings. -/
theorem reverse_lookup_rock_solid_counterexample :
    isBareGroup "v1.0.7" = false ∧
    (∀ g ∈ [(⟨"v1", [⟨"rock-solid", "v1.0.7"⟩, ⟨"stable", "v1.1.2"⟩]⟩ : ReleaseType)],
      ∀ ch ∈ g.Channels, ch.Version = "v1.0.7" → ch.Name = "rock-solid") ∧
    getChannelAndGroupFromVersion decimalModel
        ⟨[⟨"v1", [⟨"rock-solid", "v1.0.7"⟩, ⟨"stable", "v1.1.2"⟩]⟩]⟩
        ⟨[⟨"v1", [⟨"rock-solid", "v1.0.7"⟩, ⟨"stable", "v1.1.2"⟩]⟩]⟩ "v1.0.7"
      = ("rock-solid", "v1") ∧
    getChannelAndGroupFromVersion decimalModel
        ⟨[⟨"v1", [⟨"rock-solid", "v1.0.7"⟩, ⟨"stable", "v1.1.2"⟩]⟩]⟩
        ⟨[⟨"v1", [⟨"rock-solid", "v1.0.7"⟩, ⟨"stable", "v1.1.2"⟩]⟩]⟩ "v1.0.7"
      ≠ ("", "") := by
  decide

/-! ## Theorems: menu assembly -/

theorem channelItemsOfGroup_not_current (releases : ReleasesStatusType) (group : String) :
    ∀ item ∈ channelItemsOfGroup releases group, item.IsCurrent = false := by
  intro item h
  simp only [channelItemsOfGroup, List.mem_flatMap, List.mem_map] at h
  obtain ⟨_, _, _, _, _, _, rfl⟩ := h
  rfl

theorem addOtherItems_items (fm : Float64Model) (ReleasesStatus : ReleasesStatusType)
    (m : templateDataType) :
    ∃ extra, (addOtherItems fm ReleasesStatus m).VersionItems = m.VersionItems ++ extra ∧
      ∀ item ∈ extra, item.IsCurrent = false := by
  unfold addOtherItems
  induction getGroups fm ReleasesStatus generalizing m with
  | nil => exact ⟨[], by simp, by simp⟩
  | cons g rest ih =>
    obtain ⟨extra, he, hall⟩ := ih (getChannelsFromGroup m ReleasesStatus g)
    refine ⟨channelItemsOfGroup ReleasesStatus g ++ extra, ?_, ?_⟩
    · rw [List.foldl_cons, he]
      simp [getChannelsFromGroup]
    · intro item hi
      rcases List.mem_append.mp hi with h1 | h2
      · exact channelItemsOfGroup_not_current _ _ item h1
      · exact hall item h2

theorem addOtherItems_appendItem (fm : Float64Model) (ReleasesStatus : ReleasesStatusType)
    (m : templateDataType) (first : versionMenuItems) :
    ∃ extra, (addOtherItems fm ReleasesStatus (appendItem m first)).VersionItems
        = m.VersionItems ++ first :: extra ∧
      ∀ item ∈ extra, item.IsCurrent = false := by
  obtain ⟨extra, he, hall⟩ := addOtherItems_items fm ReleasesStatus (appendItem m first)
  refine ⟨extra, ?_, hall⟩
  rw [he]
  simp [appendItem]

theorem groupItems_items (groups : List String) (m : templateDataType) :
    ∃ extra, (groups.foldl (fun m group =>
        appendItem m ⟨group, "", "", "", false⟩) m).VersionItems = m.VersionItems ++ extra ∧
      ∀ item ∈ extra, item.IsCurrent = false := by
  induction groups generalizing m with
  | nil => exact ⟨[], by simp, by simp⟩
  | cons g rest ih =>
    obtain ⟨extra, he, hall⟩ := ih (appendItem m ⟨g, "", "", "", false⟩)
    refine ⟨(⟨g, "", "", "", false⟩ : versionMenuItems) :: extra, ?_, ?_⟩
    · rw [List.foldl_cons, he]
      simp [appendItem]
    · intro item hi
      rcases List.mem_cons.mp hi with h1 | h2
      · rw [h1]
      · exact hall item h2

theorem mustCompile_literal {α : Type} (LocationVersions : String) (re : Matcher α)
    (hlit : isLiteralFragment LocationVersions = true) :
    mustCompile LocationVersions re = Outcome.done re := by
  unfold mustCompile
  rw [if_pos hlit]

/-- With a literal `LocationVersions` the pattern of `getCurrentLang` compiles
and the function returns what `getCurrentLang` says. -/
theorem runGetCurrentLang_literal (GlobalConfig : GlobalConfigType) (r : Request)
    (hlit : isLiteralFragment GlobalConfig.LocationVersions = true) :
    runGetCurrentLang GlobalConfig r = Outcome.done (getCurrentLang GlobalConfig r) := by
  unfold runGetCurrentLang getCurrentLang
  cases r.OriginalURI with
  | none => rfl
  | some originalURI =>
    simp only [mustCompile_literal _ _ hlit, Outcome.bind]
    split_ifs
    · rfl
    · split <;> rfl

theorem runGetDocPageURLRelative_literal (GlobalConfig : GlobalConfigType) (r : Request)
    (useURI : Bool) (hlit : isLiteralFragment GlobalConfig.LocationVersions = true) :
    runGetDocPageURLRelative GlobalConfig r useURI
      = Outcome.done (getDocPageURLRelative GlobalConfig r useURI) := by
  unfold runGetDocPageURLRelative getDocPageURLRelative
  cases (if useURI = true then r.RequestURI else r.OriginalURI) with
  | none => rfl
  | some originalURI =>
    simp only [mustCompile_literal _ _ hlit, Outcome.bind]
    split_ifs
    · rfl
    · split
      · split_ifs <;> rfl
      · rfl

theorem runGetVersionURL_literal (GlobalConfig : GlobalConfigType) (r : Request)
    (hlit : isLiteralFragment GlobalConfig.LocationVersions = true) :
    runGetVersionURL GlobalConfig r = Outcome.done (getVersionURL GlobalConfig r) := by
  unfold runGetVersionURL getVersionURL
  cases r.OriginalURI with
  | none => rfl
  | some originalURI =>
    simp only [mustCompile_literal _ _ hlit]
    split <;> rfl

theorem channelMenuSelect_items (fm : Float64Model) (GlobalConfig : GlobalConfigType)
    (ReleasesStatus : ReleasesStatusType) (m : templateDataType)
    (releases : ReleasesStatusType) :
    (channelMenuSelect fm GlobalConfig ReleasesStatus m releases).VersionItems
      = m.VersionItems := by
  unfold channelMenuSelect
  simp only []
  repeat' split
  all_goals rfl

theorem versionMenuLink_items (GlobalConfig : GlobalConfigType)
    (ReleasesStatus : ReleasesStatusType) (m : templateDataType) :
    (versionMenuLink GlobalConfig ReleasesStatus m).1.VersionItems = m.VersionItems := by
  unfold versionMenuLink
  simp only []
  repeat' split
  all_goals rfl

theorem groupMenuFirst_items (m : templateDataType) :
    ∃ first, (groupMenuFirst m).VersionItems = m.VersionItems ++ [first] ∧
      first.IsCurrent = true := by
  unfold groupMenuFirst
  split
  · exact ⟨_, rfl, rfl⟩
  · exact ⟨_, rfl, rfl⟩

theorem channelMenuCurrent_done (fm : Float64Model) (GlobalConfig : GlobalConfigType)
    (ReleasesStatus : ReleasesStatusType) (m : templateDataType) (r : Request)
    (releases : ReleasesStatusType)
    (hlit : isLiteralFragment GlobalConfig.LocationVersions = true) :
    ∃ m1, channelMenuCurrent fm GlobalConfig ReleasesStatus m r releases = Outcome.done m1 ∧
      m1.VersionItems = m.VersionItems := by
  unfold channelMenuCurrent
  rw [runGetDocPageURLRelative_literal _ _ _ hlit, runGetVersionURL_literal _ _ hlit,
    runGetCurrentLang_literal _ _ hlit]
  exact ⟨_, rfl, channelMenuSelect_items _ _ _ _ _⟩

theorem versionMenuDefault_done (GlobalConfig : GlobalConfigType) (m : templateDataType)
    (hlit : isLiteralFragment GlobalConfig.LocationVersions = true) :
    ∃ m1, versionMenuDefault GlobalConfig m = Outcome.done m1 ∧
      m1.VersionItems = m.VersionItems := by
  unfold versionMenuDefault
  by_cases h : m.CurrentVersion = ""
  · rw [if_pos h, mustCompile_literal _ _ hlit]
    simp only [Outcome.bind]
    split
    · exact ⟨_, rfl, rfl⟩
    · exact ⟨_, rfl, rfl⟩
  · rw [if_neg h]
    exact ⟨m, rfl, rfl⟩

theorem versionMenuCurrent_done (GlobalConfig : GlobalConfigType)
    (ReleasesStatus : ReleasesStatusType) (m : templateDataType) (r : Request)
    (hlit : isLiteralFragment GlobalConfig.LocationVersions = true) :
    ∃ step, versionMenuCurrent GlobalConfig ReleasesStatus m r = Outcome.done step ∧
      step.1.VersionItems = m.VersionItems := by
  unfold versionMenuCurrent
  rw [runGetDocPageURLRelative_literal _ _ _ hlit, runGetVersionURL_literal _ _ hlit,
    runGetCurrentLang_literal _ _ hlit]
  simp only [Outcome.bind]
  obtain ⟨m1, hdone, hitems⟩ := versionMenuDefault_done GlobalConfig
    { m with
      CurrentPageURLRelative := getDocPageURLRelative GlobalConfig r false,
      CurrentPageURL := getCurrentPageURL r,
      CurrentVersionURL := getVersionURL GlobalConfig r,
      CurrentVersion := URLToVersion (getVersionURL GlobalConfig r),
      CurrentLang := getCurrentLang GlobalConfig r } hlit
  rw [hdone]
  exact ⟨_, rfl, (versionMenuLink_items _ _ _).trans hitems⟩

theorem groupMenuCurrent_done (GlobalConfig : GlobalConfigType) (m : templateDataType)
    (r : Request) (hlit : isLiteralFragment GlobalConfig.LocationVersions = true) :
    ∃ m1, groupMenuCurrent GlobalConfig m r = Outcome.done m1 ∧
      m1.VersionItems = m.VersionItems := by
  unfold groupMenuCurrent
  rw [runGetDocPageURLRelative_literal _ _ _ hlit, runGetVersionURL_literal _ _ hlit,
    runGetCurrentLang_literal _ _ hlit]
  simp only [Outcome.bind]
  split_ifs
  · exact ⟨_, rfl, rfl⟩
  · exact ⟨_, rfl, rfl⟩

theorem getChannelMenuData_items (fm : Float64Model) (GlobalConfig : GlobalConfigType)
    (ReleasesStatus : ReleasesStatusType) (m : templateDataType) (r : Request)
    (releases : ReleasesStatusType)
    (hlit : isLiteralFragment GlobalConfig.LocationVersions = true) :
    ∃ out first extra,
      getChannelMenuData fm GlobalConfig ReleasesStatus m r releases = Outcome.done out ∧
      out.VersionItems = m.VersionItems ++ first :: extra ∧
      first.IsCurrent = true ∧ ∀ item ∈ extra, item.IsCurrent = false := by
  obtain ⟨m1, hdone, hitems⟩ :=
    channelMenuCurrent_done fm GlobalConfig ReleasesStatus m r releases hlit
  obtain ⟨extra, he, hall⟩ := addOtherItems_appendItem fm ReleasesStatus m1 (currentItem m1)
  rw [hitems] at he
  refine ⟨_, currentItem m1, extra, ?_, he, rfl, hall⟩
  unfold getChannelMenuData
  rw [hdone]
  rfl

theorem getGroupMenuData_items (fm : Float64Model) (GlobalConfig : GlobalConfigType)
    (ReleasesStatus : ReleasesStatusType) (m : templateDataType) (r : Request)
    (hlit : isLiteralFragment GlobalConfig.LocationVersions = true) :
    ∃ out first extra,
      getGroupMenuData fm GlobalConfig ReleasesStatus m r = Outcome.done out ∧
      out.VersionItems = m.VersionItems ++ first :: extra ∧
      first.IsCurrent = true ∧ ∀ item ∈ extra, item.IsCurrent = false := by
  obtain ⟨m1, hdone, hitems⟩ := groupMenuCurrent_done GlobalConfig m r hlit
  obtain ⟨first, hfirst, hcur⟩ := groupMenuFirst_items m1
  obtain ⟨extra, he, hall⟩ := groupItems_items (getGroups fm ReleasesStatus)
    (groupMenuFirst m1)
  refine ⟨addGroupItems fm ReleasesStatus (groupMenuFirst m1), first, extra, ?_, ?_,
    hcur, hall⟩
  · unfold getGroupMenuData
    rw [hdone]
    rfl
  · show ((getGroups fm ReleasesStatus).foldl _ (groupMenuFirst m1)).VersionItems = _
    rw [he, hfirst, hitems]
    simp only [List.append_assoc, List.singleton_append]

theorem getVersionMenuData_done (fm : Float64Model) (GlobalConfig : GlobalConfigType)
    (ReleasesStatus : ReleasesStatusType) (m : templateDataType) (r : Request)
    (hlit : isLiteralFragment GlobalConfig.LocationVersions = true) :
    ∃ out step, getVersionMenuData fm GlobalConfig ReleasesStatus m r = Outcome.done out ∧
      step.VersionItems = m.VersionItems ∧
      out.1.VersionItems
        = (addOtherItems fm ReleasesStatus (appendItem step (currentItem step))).VersionItems
          ++ (if GlobalConfig.ShowLatestChannel = true
            then [⟨"", "", "latest", "latest", false⟩] else []) := by
  obtain ⟨step, hdone, hitems⟩ :=
    versionMenuCurrent_done GlobalConfig ReleasesStatus m r hlit
  refine ⟨(versionMenuAssemble fm GlobalConfig ReleasesStatus step.1, step.2), step.1,
    ?_, hitems, ?_⟩
  · unfold getVersionMenuData
    rw [hdone]
    rfl
  · show (versionMenuAssemble fm GlobalConfig ReleasesStatus step.1).VersionItems = _
    unfold versionMenuAssemble
    by_cases hflag : GlobalConfig.ShowLatestChannel = true
    · simp only [if_pos hflag]
      rfl
    · simp only [if_neg hflag, List.append_nil]

theorem getVersionMenuData_items (fm : Float64Model) (GlobalConfig : GlobalConfigType)
    (ReleasesStatus : ReleasesStatusType) (m : templateDataType) (r : Request)
    (hlit : isLiteralFragment GlobalConfig.LocationVersions = true) :
    ∃ out first extra,
      getVersionMenuData fm GlobalConfig ReleasesStatus m r = Outcome.done out ∧
      out.1.VersionItems = m.VersionItems ++ first :: extra ∧
      first.IsCurrent = true ∧ ∀ item ∈ extra, item.IsCurrent = false := by
  obtain ⟨out, step, hdone, hitems, hout⟩ :=
    getVersionMenuData_done fm GlobalConfig ReleasesStatus m r hlit
  obtain ⟨extra, he, hall⟩ := addOtherItems_appendItem fm ReleasesStatus step
    (currentItem step)
  refine ⟨out, currentItem step, extra ++ (if GlobalConfig.ShowLatestChannel = true
    then [⟨"", "", "latest", "latest", false⟩] else []), hdone, ?_, rfl, ?_⟩
  · rw [hout, he, hitems]
    simp only [List.append_assoc, List.cons_append]
  · intro item hi
    rcases List.mem_append.mp hi with h | h
    · exact hall item h
    · split_ifs at h
      · rw [List.mem_singleton.mp h]
      · simp at h

/-- Claim C10 (as amended). Menu has exactly one current item: for each of the
three menu builders started from an empty item list, for every topology and
request, and for every configuration whose `LocationVersions` holds no
metacharacter of regular expressions, the builder returns, the assembled
`VersionItems` is non-empty, its first item is current and no other item is. -/
theorem menu_one_current (fm : Float64Model) (GlobalConfig : GlobalConfigType)
    (ReleasesStatus releases : ReleasesStatusType) (m : templateDataType) (r : Request)
    (hlit : isLiteralFragment GlobalConfig.LocationVersions = true)
    (hm : m.VersionItems = []) :
    (∃ out, getVersionMenuData fm GlobalConfig ReleasesStatus m r = Outcome.done out ∧
      OneCurrentFirst out.1.VersionItems) ∧
    (∃ out, getGroupMenuData fm GlobalConfig ReleasesStatus m r = Outcome.done out ∧
      OneCurrentFirst out.VersionItems) ∧
    (∃ out, getChannelMenuData fm GlobalConfig ReleasesStatus m r releases
        = Outcome.done out ∧
      OneCurrentFirst out.VersionItems) := by
  obtain ⟨o1, f1, e1, d1, h1, c1, n1⟩ :=
    getVersionMenuData_items fm GlobalConfig ReleasesStatus m r hlit
  obtain ⟨o2, f2, e2, d2, h2, c2, n2⟩ :=
    getGroupMenuData_items fm GlobalConfig ReleasesStatus m r hlit
  obtain ⟨o3, f3, e3, d3, h3, c3, n3⟩ :=
    getChannelMenuData_items fm GlobalConfig ReleasesStatus m r releases hlit
  rw [hm, List.nil_append] at h1 h2 h3
  exact ⟨⟨o1, d1, f1, e1, h1, c1, n1⟩, ⟨o2, d2, f2, e2, h2, c2, n2⟩,
    ⟨o3, d3, f3, e3, h3, c3, n3⟩⟩

/-- The three menus of the request `/en/documentation/v1/a.html`. -/
theorem menu_one_current_witness :
    isLiteralFragment "/documentation" = true ∧
    emptyTemplateData.VersionItems = [] ∧
    (∃ out, getVersionMenuData decimalModel ⟨"v1", "stable", true, "/documentation"⟩
        ⟨[⟨"v1", [⟨"alpha", "v1.3+a"⟩, ⟨"stable", "v1.2"⟩]⟩]⟩ emptyTemplateData
        ⟨some ⟨"/en/documentation/v1/a.html", none⟩, none⟩ = Outcome.done out ∧
      OneCurrentFirst out.1.VersionItems) ∧
    (∃ out, getGroupMenuData decimalModel ⟨"v1", "stable", true, "/documentation"⟩
        ⟨[⟨"v1", [⟨"alpha", "v1.3+a"⟩, ⟨"stable", "v1.2"⟩]⟩]⟩ emptyTemplateData
        ⟨some ⟨"/en/documentation/v1/a.html", none⟩, none⟩ = Outcome.done out ∧
      OneCurrentFirst out.VersionItems) ∧
    (∃ out, getChannelMenuData decimalModel ⟨"v1", "stable", true, "/documentation"⟩
        ⟨[⟨"v1", [⟨"alpha", "v1.3+a"⟩, ⟨"stable", "v1.2"⟩]⟩]⟩ emptyTemplateData
        ⟨some ⟨"/en/documentation/v1/a.html", none⟩, none⟩
        ⟨[⟨"v1", [⟨"alpha", "v1.3+a"⟩, ⟨"stable", "v1.2"⟩]⟩]⟩ = Outcome.done out ∧
      OneCurrentFirst out.VersionItems) :=
  ⟨by decide, rfl,
   menu_one_current decimalModel ⟨"v1", "stable", true, "/documentation"⟩
    ⟨[⟨"v1", [⟨"alpha", "v1.3+a"⟩, ⟨"stable", "v1.2"⟩]⟩]⟩
    ⟨[⟨"v1", [⟨"alpha", "v1.3+a"⟩, ⟨"stable", "v1.2"⟩]⟩]⟩ emptyTemplateData
    ⟨some ⟨"/en/documentation/v1/a.html", none⟩, none⟩ (by decide) rfl⟩

/-- Claim C10 (as stated) fails: with `LocationVersions` set to `(`, the
patterns built around it miss a closing parenthesis; for the request
`/en/documentation/v1/a.html` each of the three builders panics in
`regexp.MustCompile` and assembles no menu. -/
theorem menu_panics_counterexample :
    getVersionMenuData decimalModel ⟨"v1", "stable", true, "("⟩
        ⟨[⟨"v1", [⟨"stable", "v1.2"⟩]⟩]⟩ emptyTemplateData
        ⟨some ⟨"/en/documentation/v1/a.html", none⟩, none⟩ = Outcome.panic ∧
    getGroupMenuData decimalModel ⟨"v1", "stable", true, "("⟩
        ⟨[⟨"v1", [⟨"stable", "v1.2"⟩]⟩]⟩ emptyTemplateData
        ⟨some ⟨"/en/documentation/v1/a.html", none⟩, none⟩ = Outcome.panic ∧
    getChannelMenuData decimalModel ⟨"v1", "stable", true, "("⟩
        ⟨[⟨"v1", [⟨"stable", "v1.2"⟩]⟩]⟩ emptyTemplateData
        ⟨some ⟨"/en/documentation/v1/a.html", none⟩, none⟩
        ⟨[⟨"v1", [⟨"stable", "v1.2"⟩]⟩]⟩ = Outcome.panic := by
  refine ⟨rfl, rfl, rfl⟩
/-! ## Theorems: the codec in the other direction -/

theorem mem_replaceAllAux (old new : List Char) (k : Nat) (z : List Char) (x : Char)
    (h : x ∈ replaceAllAux old new k z) : x ∈ new ∨ x ∈ z := by
  induction z generalizing k with
  | nil => simp [replaceAllAux] at h
  | cons c cs ih =>
    cases k with
    | succ k =>
      simp only [replaceAllAux] at h
      rcases ih k h with h1 | h1
      · exact Or.inl h1
      · exact Or.inr (List.mem_cons_of_mem _ h1)
    | zero =>
      simp only [replaceAllAux] at h
      split_ifs at h
      · rcases List.mem_append.mp h with h1 | h1
        · exact Or.inl h1
        · rcases ih _ h1 with h2 | h2
          · exact Or.inl h2
          · exact Or.inr (List.mem_cons_of_mem _ h2)
      · rcases List.mem_cons.mp h with h1 | h1
        · exact Or.inr (h1 ▸ List.mem_cons_self _ _)
        · rcases ih _ h1 with h2 | h2
          · exact Or.inl h2
          · exact Or.inr (List.mem_cons_of_mem _ h2)

theorem expand_cons_eq (c : Char) (p t : List Char) :
    expand c p (c :: t) = p ++ expand c p t := by
  show (if c = c then p else [c]) ++ expand c p t = _
  rw [if_pos rfl]

theorem expand_cons_ne (c x : Char) (p t : List Char) (h : x ≠ c) :
    expand c p (x :: t) = x :: expand c p t := by
  show (if x = c then p else [x]) ++ expand c p t = _
  rw [if_neg h]
  rfl

/-- Encoding the character `c` as `o :: os` undoes the replacement of
`o :: os` by `c`, on a text that does not hold `c`. -/
theorem expand_replaceAllAux (c o : Char) (os : List Char) (n : Nat) (z : List Char)
    (hn : z.length ≤ n) (hc : c ∉ z) :
    expand c (o :: os) (replaceAllAux (o :: os) [c] 0 z) = z := by
  induction n generalizing z with
  | zero =>
    have : z = [] := List.length_eq_zero.mp (Nat.le_zero.mp hn)
    subst this
    rfl
  | succ n ih =>
    cases z with
    | nil => rfl
    | cons x t =>
      by_cases hp : (o :: os) <+: x :: t
      · obtain ⟨rest, hrest⟩ := hp
        have hlen : rest.length ≤ n := by
          have := congrArg List.length hrest
          simp only [List.length_append, List.length_cons] at this hn
          omega
        have hcr : c ∉ rest := fun hm => hc (hrest ▸ List.mem_append_right _ hm)
        rw [← hrest, replaceAllAux_hit]
        show expand c (o :: os) (c :: replaceAllAux (o :: os) [c] 0 rest) = _
        rw [expand_cons_eq, ih rest hlen hcr]
      · have hx : x ≠ c := fun e => hc (e ▸ List.mem_cons_self _ _)
        have hct : c ∉ t := fun hm => hc (List.mem_cons_of_mem _ hm)
        have hlen : t.length ≤ n := by
          simp only [List.length_cons] at hn
          omega
        rw [replaceAllAux_miss _ _ _ _ hp, expand_cons_ne _ _ _ _ hx, ih t hlen hct]

theorem expand_comm (y : List Char) :
    expand '_' "-u-".data (expand '+' "-plus-".data y)
      = expand '+' "-plus-".data (expand '_' "-u-".data y) := by
  have eP : expand '_' "-u-".data "-plus-".data = "-plus-".data := by decide
  have eU : expand '+' "-plus-".data "-u-".data = "-u-".data := by decide
  induction y with
  | nil => rfl
  | cons x t ih =>
    by_cases h1 : x = '+'
    · subst h1
      rw [expand_cons_eq, expand_append, eP, ih,
        expand_cons_ne '_' '+' _ _ (by decide), expand_cons_eq]
    · by_cases h2 : x = '_'
      · subst h2
        rw [expand_cons_ne '+' '_' _ _ (by decide), expand_cons_eq, ih, expand_cons_eq,
          expand_append, eU]
      · rw [expand_cons_ne _ _ _ _ h1, expand_cons_ne _ _ _ _ h2, ih,
          expand_cons_ne _ _ _ _ h2, expand_cons_ne _ _ _ _ h1]

/-- Claim C15. The codec is inverse in the other direction: for every URL
segment `s` that contains neither `+` nor `_`,
`VersionToURL (URLToVersion s) = s`. -/
theorem codec_round_trip_url (s : String) (hplus : '+' ∉ s.data) (hu : '_' ∉ s.data) :
    VersionToURL (URLToVersion s) = s := by
  apply String.ext
  rw [VersionToURL_data]
  show expand '_' "-u-".data (expand '+' "-plus-".data
    (replaceAllAux "-u-".data "_".data 0 (replaceAllAux "-plus-".data "+".data 0 s.data)))
      = s.data
  have hz : '_' ∉ replaceAllAux "-plus-".data "+".data 0 s.data := by
    intro hm
    rcases mem_replaceAllAux _ _ _ _ _ hm with h1 | h1
    · revert h1; decide
    · exact hu h1
  rw [expand_comm]
  have e1 := expand_replaceAllAux '_' '-' "u-".data _
    (replaceAllAux "-plus-".data "+".data 0 s.data) (Nat.le_refl _) hz
  have e2 := expand_replaceAllAux '+' '-' "plus-".data _ s.data (Nat.le_refl _) hplus
  have e1b : expand '_' "-u-".data (replaceAllAux "-u-".data "_".data 0
      (replaceAllAux "-plus-".data "+".data 0 s.data))
      = replaceAllAux "-plus-".data "+".data 0 s.data := e1
  have e2b : expand '+' "-plus-".data (replaceAllAux "-plus-".data "+".data 0 s.data)
      = s.data := e2
  rw [e1b, e2b]

/-- The round trip of the URL segment `v1.2-u-3-plus-plus-fix`. -/
theorem codec_round_trip_url_witness :
    '+' ∉ "v1.2-u-3-plus-plus-fix".data ∧ '_' ∉ "v1.2-u-3-plus-plus-fix".data ∧
      VersionToURL (URLToVersion "v1.2-u-3-plus-plus-fix") = "v1.2-u-3-plus-plus-fix" :=
  ⟨by decide, by decide, codec_round_trip_url "v1.2-u-3-plus-plus-fix" (by decide) (by decide)⟩

/-! ## Theorems: reverse and forward lookup together -/

theorem mem_matchingEntries (releases : ReleasesStatusType) (c g : String) (e : ChannelType) :
    e ∈ matchingEntries releases c g ↔
      ∃ grp ∈ releases.Groups, grp.Name = g ∧ e ∈ grp.Channels ∧ e.Name = c := by
  simp only [matchingEntries, List.mem_flatten, List.mem_map, List.mem_filter,
    decide_eq_true_eq]
  constructor
  · rintro ⟨l, ⟨grp, ⟨hgrp, hname⟩, rfl⟩, hel⟩
    simp only [List.mem_filter, decide_eq_true_eq] at hel
    exact ⟨grp, hgrp, hname, hel.1, hel.2⟩
  · rintro ⟨grp, hgrp, hname, hch, hcn⟩
    exact ⟨_, ⟨grp, ⟨hgrp, hname⟩, rfl⟩, by simp [hch, hcn]⟩

/-- In a well-formed topology the entry of a group for a channel is the one
the exact lookup returns. -/
theorem forward_lookup_of_entry (releases : ReleasesStatusType) (hwf : WellFormed releases)
    (v c g : String) (grp : ReleaseType) (ch : ChannelType)
    (hgrp : grp ∈ releases.Groups) (hname : grp.Name = g) (hch : ch ∈ grp.Channels)
    (hcn : ch.Name = c) (hcv : ch.Version = v) :
    getVersionFromChannelAndGroup releases c g = (v, none) := by
  have key : findGroupChannelVersion c g releases.Groups
      = ((matchingEntries releases c g).head?).map (·.Version) :=
    findGroupChannelVersion_eq c g releases.Groups
  have hne : matchingEntries releases c g ≠ [] :=
    (matchingEntries_ne_nil_iff releases c g).mpr ⟨grp, hgrp, hname, ch, hch, hcn⟩
  unfold getVersionFromChannelAndGroup
  rw [key]
  cases hme : matchingEntries releases c g with
  | nil => exact absurd hme hne
  | cons e rest =>
    have hmem : e ∈ matchingEntries releases c g := by rw [hme]; exact List.mem_cons_self _ _
    obtain ⟨grp1, hgrp1, hname1, hch1, hcn1⟩ := (mem_matchingEntries releases c g e).mp hmem
    have eg : grp1 = grp :=
      List.inj_on_of_nodup_map hwf.1 hgrp1 hgrp (hname1.trans hname.symm)
    subst eg
    have ee : e = ch :=
      List.inj_on_of_nodup_map (hwf.2 grp1 hgrp) hch1 hch (hcn1.trans hcn.symm)
    subst ee
    simp [hcv]

/-- Claim C16. Reverse and forward lookup agree: in a topology with unique group
names and at most one entry per channel in a group, when
`getChannelAndGroupFromVersion` returns `(c, g)` with `c` non-empty for a
version `v`, `getVersionFromChannelAndGroup` for `c` and `g` succeeds and
returns `v`. -/
theorem reverse_forward_agree (fm : Float64Model) (releases : ReleasesStatusType)
    (v c g : String) (hwf : WellFormed releases)
    (h : getChannelAndGroupFromVersion fm releases releases v = (c, g)) (hc : c ≠ "") :
    getVersionFromChannelAndGroup releases c g = (v, none) := by
  unfold getChannelAndGroupFromVersion at h
  rw [findSubmatch_reBareGroup] at h
  by_cases hb : isBareGroup v = true
  · simp only [hb, if_true, Prod.mk.injEq] at h
    exact absurd h.1.symm hc
  · have hb2 : isBareGroup v = false := by simpa using hb
    rw [hb2] at h
    simp only [Bool.false_eq_true, if_false] at h
    cases hs : scanGroups releases v (getGroups fm releases) with
    | none =>
      simp only [hs, Prod.mk.injEq] at h
      exact absurd h.1.symm hc
    | some found =>
      simp only [hs] at h
      obtain ⟨g1, -, c1, -, hr, hv⟩ := scanGroups_some releases v _ found hs
      rw [h, Prod.mk.injEq] at hr
      obtain ⟨rfl, rfl⟩ := hr
      obtain ⟨grp, hgrp, hname, ch, hch, hcn, hcv⟩ :=
        (versionRecorded_iff releases v c g).mp hv
      exact forward_lookup_of_entry releases hwf v c g grp ch hgrp hname hch hcn hcv

/-- Version `v1.3.0-beta2`, found under beta of `v1`, is what the exact lookup
of beta in `v1` returns. -/
theorem reverse_forward_agree_witness :
    WellFormed ⟨[⟨"v2", [⟨"stable", "v2.0.1"⟩]⟩,
      ⟨"v1", [⟨"stable", "v1.2.9"⟩, ⟨"beta", "v1.3.0-beta2"⟩]⟩]⟩ ∧
    getChannelAndGroupFromVersion decimalModel
      ⟨[⟨"v2", [⟨"stable", "v2.0.1"⟩]⟩,
        ⟨"v1", [⟨"stable", "v1.2.9"⟩, ⟨"beta", "v1.3.0-beta2"⟩]⟩]⟩
      ⟨[⟨"v2", [⟨"stable", "v2.0.1"⟩]⟩,
        ⟨"v1", [⟨"stable", "v1.2.9"⟩, ⟨"beta", "v1.3.0-beta2"⟩]⟩]⟩
      "v1.3.0-beta2" = ("beta", "v1") ∧
    getVersionFromChannelAndGroup
      ⟨[⟨"v2", [⟨"stable", "v2.0.1"⟩]⟩,
        ⟨"v1", [⟨"stable", "v1.2.9"⟩, ⟨"beta", "v1.3.0-beta2"⟩]⟩]⟩
      "beta" "v1" = ("v1.3.0-beta2", none) :=
  ⟨by decide, by decide,
   reverse_forward_agree decimalModel
    ⟨[⟨"v2", [⟨"stable", "v2.0.1"⟩]⟩,
      ⟨"v1", [⟨"stable", "v1.2.9"⟩, ⟨"beta", "v1.3.0-beta2"⟩]⟩]⟩
    "v1.3.0-beta2" "beta" "v1" (by decide) (by decide) (by decide)⟩

/-! ## Theorems: the channels of a group in the menu -/

theorem filter_name_eq_singleton (gs : List ReleaseType) (g : ReleaseType)
    (hnd : (gs.map (·.Name)).Nodup) (hg : g ∈ gs) :
    gs.filter (fun item => item.Name = g.Name) = [g] := by
  induction gs with
  | nil => simp at hg
  | cons h rest ih =>
    simp only [List.map_cons, List.nodup_cons] at hnd
    rcases List.mem_cons.mp hg with rfl | hr
    · have hnone : rest.filter (fun item => item.Name = g.Name) = [] := by
        rw [List.filter_eq_nil_iff]
        intro x hx hxe
        simp only [decide_eq_true_eq] at hxe
        exact hnd.1 (hxe ▸ List.mem_map_of_mem _ hx)
      simp [hnone]
    · have hne : h.Name ≠ g.Name := fun e => hnd.1 (e ▸ List.mem_map_of_mem _ hr)
      simp [hne, ih hnd.2 hr]

theorem channelItemsOfGroup_eq (releases : ReleasesStatusType) (g : ReleaseType)
    (hnd : (releases.Groups.map (·.Name)).Nodup) (hg : g ∈ releases.Groups) :
    channelItemsOfGroup releases g.Name =
      channelsListReverseStability.flatMap (fun channel =>
        (g.Channels.filter (fun ch => ch.Name = channel)).map (menuItemOf g.Name)) := by
  unfold channelItemsOfGroup
  rw [filter_name_eq_singleton releases.Groups g hnd hg]
  simp only [List.flatMap_cons, List.flatMap_nil, List.append_nil]
  rfl

theorem filter_split_perm (cs : List ChannelType) (c : String) (rest : List String)
    (hc : c ∉ rest) :
    (cs.filter (fun ch => ch.Name = c) ++ cs.filter (fun ch => ch.Name ∈ rest)).Perm
      (cs.filter (fun ch => ch.Name ∈ c :: rest)) := by
  induction cs with
  | nil => exact List.Perm.refl _
  | cons ch t ih =>
    by_cases h1 : ch.Name = c
    · have e1 : decide (ch.Name = c) = true := decide_eq_true h1
      have e2 : decide (ch.Name ∈ rest) = false := decide_eq_false (h1 ▸ hc)
      have e3 : decide (ch.Name ∈ c :: rest) = true :=
        decide_eq_true (h1 ▸ List.mem_cons_self _ _)
      simp only [List.filter_cons, e1, e2, e3, if_true, Bool.false_eq_true, if_false,
        List.cons_append]
      exact List.Perm.cons ch ih
    · have e1 : decide (ch.Name = c) = false := decide_eq_false h1
      by_cases h2 : ch.Name ∈ rest
      · have e2 : decide (ch.Name ∈ rest) = true := decide_eq_true h2
        have e3 : decide (ch.Name ∈ c :: rest) = true :=
          decide_eq_true (List.mem_cons_of_mem _ h2)
        simp only [List.filter_cons, e1, e2, e3, if_true, Bool.false_eq_true, if_false]
        exact List.perm_middle.trans (List.Perm.cons ch ih)
      · have e2 : decide (ch.Name ∈ rest) = false := decide_eq_false h2
        have e3 : decide (ch.Name ∈ c :: rest) = false :=
          decide_eq_false (fun hm => (List.mem_cons.mp hm).elim h1 h2)
        simp only [List.filter_cons, e1, e2, e3, Bool.false_eq_true, if_false]
        exact ih

theorem flatMap_filter_perm {β : Type} (f : ChannelType → β) (cs : List ChannelType)
    (l : List String) (hl : l.Nodup) :
    (l.flatMap (fun c => (cs.filter (fun ch => ch.Name = c)).map f)).Perm
      ((cs.filter (fun ch => ch.Name ∈ l)).map f) := by
  induction l with
  | nil => simp
  | cons c rest ih =>
    simp only [List.nodup_cons] at hl
    rw [List.flatMap_cons]
    refine (List.Perm.append_left _ (ih hl.2)).trans ?_
    rw [← List.map_append]
    exact (filter_split_perm cs c rest hl.1).map f

theorem filter_name_nil_or_singleton (cs : List ChannelType) (c : String)
    (hnd : (cs.map (·.Name)).Nodup) :
    (cs.filter (fun ch => ch.Name = c)).map (·.Name) = [] ∨
      (cs.filter (fun ch => ch.Name = c)).map (·.Name) = [c] := by
  induction cs with
  | nil => exact Or.inl rfl
  | cons ch t ih =>
    simp only [List.map_cons, List.nodup_cons] at hnd
    by_cases h1 : ch.Name = c
    · right
      have hnone : t.filter (fun x => x.Name = c) = [] := by
        rw [List.filter_eq_nil_iff]
        intro x hx hxe
        simp only [decide_eq_true_eq] at hxe
        exact hnd.1 (h1 ▸ hxe ▸ List.mem_map_of_mem _ hx)
      simp [h1, hnone]
    · simpa [h1] using ih hnd.2

theorem flatMap_filter_sublist (group : String) (cs : List ChannelType) (l : List String)
    (hnd : (cs.map (·.Name)).Nodup) :
    ((l.flatMap (fun c => (cs.filter (fun ch => ch.Name = c)).map (menuItemOf group))).map
      (·.Channel)).Sublist l := by
  induction l with
  | nil => simp
  | cons c rest ih =>
    rw [List.flatMap_cons, List.map_append]
    have e : ((cs.filter (fun ch => ch.Name = c)).map (menuItemOf group)).map (·.Channel)
        = (cs.filter (fun ch => ch.Name = c)).map (·.Name) := by
      rw [List.map_map]
      rfl
    rw [e]
    rcases filter_name_nil_or_singleton cs c hnd with h | h
    · rw [h, List.nil_append]
      exact List.Sublist.cons c ih
    · rw [h, List.singleton_append]
      exact List.Sublist.cons₂ c ih

/-- Claim C12. Menu channel enumeration order: in a topology with unique group
names and at most one entry per channel in a group, the items
`getChannelsFromGroup` appends for a group `g` are the menu items of exactly
the entries of `g` whose channel is one of rock-solid, stable, ea, beta, alpha,
each once, and their channels appear in the fixed order rock-solid, stable, ea,
beta, alpha. -/
theorem channel_enumeration (m : templateDataType) (releases : ReleasesStatusType)
    (g : ReleaseType) (hwf : WellFormed releases) (hg : g ∈ releases.Groups) :
    ∃ appended,
      (getChannelsFromGroup m releases g.Name).VersionItems = m.VersionItems ++ appended ∧
      appended.Perm ((g.Channels.filter
        (fun ch => ch.Name ∈ ["rock-solid", "stable", "ea", "beta", "alpha"])).map
          (menuItemOf g.Name)) ∧
      (appended.map (·.Channel)).Sublist ["rock-solid", "stable", "ea", "beta", "alpha"] := by
  refine ⟨channelItemsOfGroup releases g.Name, rfl, ?_, ?_⟩
  · rw [channelItemsOfGroup_eq releases g hwf.1 hg]
    exact flatMap_filter_perm (menuItemOf g.Name) g.Channels channelsListReverseStability
      (by decide)
  · rw [channelItemsOfGroup_eq releases g hwf.1 hg]
    exact flatMap_filter_sublist g.Name g.Channels channelsListReverseStability (hwf.2 g hg)

/-- Group `v1` with the entries alpha, canary, stable, in that order: the menu
gets stable, then alpha. -/
theorem channel_enumeration_witness :
    WellFormed ⟨[⟨"v1", [⟨"alpha", "v1.3+a"⟩, ⟨"canary", "v1.4"⟩, ⟨"stable", "v1.2"⟩]⟩]⟩ ∧
    (getChannelsFromGroup emptyTemplateData
      ⟨[⟨"v1", [⟨"alpha", "v1.3+a"⟩, ⟨"canary", "v1.4"⟩, ⟨"stable", "v1.2"⟩]⟩]⟩
      "v1").VersionItems
      = [⟨"v1", "stable", "v1.2", "v1.2", false⟩,
         ⟨"v1", "alpha", "v1.3+a", "v1.3-plus-a", false⟩] ∧
    ∃ appended,
      (getChannelsFromGroup emptyTemplateData
        ⟨[⟨"v1", [⟨"alpha", "v1.3+a"⟩, ⟨"canary", "v1.4"⟩, ⟨"stable", "v1.2"⟩]⟩]⟩
        "v1").VersionItems = emptyTemplateData.VersionItems ++ appended ∧
      appended.Perm ((([⟨"alpha", "v1.3+a"⟩, ⟨"canary", "v1.4"⟩, ⟨"stable", "v1.2"⟩] :
        List ChannelType).filter
        (fun ch => ch.Name ∈ ["rock-solid", "stable", "ea", "beta", "alpha"])).map
          (menuItemOf "v1")) ∧
      (appended.map (·.Channel)).Sublist ["rock-solid", "stable", "ea", "beta", "alpha"] :=
  ⟨by decide, by decide,
   channel_enumeration emptyTemplateData
    ⟨[⟨"v1", [⟨"alpha", "v1.3+a"⟩, ⟨"canary", "v1.4"⟩, ⟨"stable", "v1.2"⟩]⟩]⟩
    ⟨"v1", [⟨"alpha", "v1.3+a"⟩, ⟨"canary", "v1.4"⟩, ⟨"stable", "v1.2"⟩]⟩
    (by decide) (by decide)⟩

/-! ## Theorems: the latest item of the version menu -/

theorem channelItemsOfGroup_channel (releases : ReleasesStatusType) (group : String) :
    ∀ item ∈ channelItemsOfGroup releases group, item.Channel ≠ "" := by
  intro item h
  simp only [channelItemsOfGroup, List.mem_flatMap, List.mem_map, List.mem_filter,
    decide_eq_true_eq] at h
  obtain ⟨_, _, channel, hchannel, ch, ⟨_, hname⟩, rfl⟩ := h
  show ch.Name ≠ ""
  rw [hname]
  intro e
  rw [e] at hchannel
  revert hchannel
  decide

theorem addOtherItems_channels (fm : Float64Model) (ReleasesStatus : ReleasesStatusType)
    (m : templateDataType) :
    ∃ extra, (addOtherItems fm ReleasesStatus m).VersionItems = m.VersionItems ++ extra ∧
      ∀ item ∈ extra, item.Channel ≠ "" := by
  unfold addOtherItems
  induction getGroups fm ReleasesStatus generalizing m with
  | nil => exact ⟨[], by simp, by simp⟩
  | cons g rest ih =>
    obtain ⟨extra, he, hall⟩ := ih (getChannelsFromGroup m ReleasesStatus g)
    refine ⟨channelItemsOfGroup ReleasesStatus g ++ extra, ?_, ?_⟩
    · rw [List.foldl_cons, he]
      simp [getChannelsFromGroup]
    · intro item hi
      rcases List.mem_append.mp hi with h1 | h2
      · exact channelItemsOfGroup_channel _ _ item h1
      · exact hall item h2

/-- The shape of the version menu: the current item, the channel items of the
groups, and the `latest` item when the flag is set. -/
theorem getVersionMenuData_shape (fm : Float64Model) (GlobalConfig : GlobalConfigType)
    (ReleasesStatus : ReleasesStatusType) (m : templateDataType) (r : Request)
    (hlit : isLiteralFragment GlobalConfig.LocationVersions = true) :
    ∃ out first extra,
      getVersionMenuData fm GlobalConfig ReleasesStatus m r = Outcome.done out ∧
      out.1.VersionItems = m.VersionItems ++ first :: (extra ++
          (if GlobalConfig.ShowLatestChannel = true
            then [⟨"", "", "latest", "latest", false⟩] else [])) ∧
      ∀ item ∈ extra, item.Channel ≠ "" := by
  obtain ⟨out, step, hdone, hitems, hout⟩ :=
    getVersionMenuData_done fm GlobalConfig ReleasesStatus m r hlit
  obtain ⟨extra, he, hall⟩ := addOtherItems_channels fm ReleasesStatus
    (appendItem step (currentItem step))
  refine ⟨out, currentItem step, extra, hdone, ?_, hall⟩
  rw [hout, he]
  simp only [appendItem, hitems, List.append_assoc, List.singleton_append,
    List.cons_append, List.nil_append]

/-- Claim C11 (as amended). The `latest` pseudo-item is last, never current and
flag-gated among the items that follow the current one: for a configuration
whose `LocationVersions` holds no metacharacter of regular expressions,
`getVersionMenuData` started from an empty item list returns a menu in which
every item after item 0 whose version is `latest` with empty group and empty
channel is the last item and has `IsCurrent = false`, so there is at most one
such item, and such an item is present only when the show-latest-channel flag
is enabled. -/
theorem latest_item_after_first (fm : Float64Model) (GlobalConfig : GlobalConfigType)
    (ReleasesStatus : ReleasesStatusType) (m : templateDataType) (r : Request)
    (hlit : isLiteralFragment GlobalConfig.LocationVersions = true)
    (hm : m.VersionItems = []) :
    ∃ out first others,
      getVersionMenuData fm GlobalConfig ReleasesStatus m r = Outcome.done out ∧
      out.1.VersionItems = first :: others ∧
      ∀ pre item post, others = pre ++ item :: post → isLatestItem item →
        post = [] ∧ item.IsCurrent = false ∧ GlobalConfig.ShowLatestChannel = true := by
  obtain ⟨out, first, extra, hdone, hshape, hall⟩ :=
    getVersionMenuData_shape fm GlobalConfig ReleasesStatus m r hlit
  rw [hm, List.nil_append] at hshape
  refine ⟨out, first, _, hdone, hshape, ?_⟩
  intro pre item post hsplit hlatest
  have hch : item.Channel = "" := hlatest.2.2
  have htail : ∀ c1 : List versionMenuItems,
      (if GlobalConfig.ShowLatestChannel = true
        then [(⟨"", "", "latest", "latest", false⟩ : versionMenuItems)] else [])
        = c1 ++ item :: post →
      post = [] ∧ item.IsCurrent = false ∧ GlobalConfig.ShowLatestChannel = true := by
    intro c1 hc1
    by_cases hflag : GlobalConfig.ShowLatestChannel = true
    · rw [if_pos hflag] at hc1
      cases c1 with
      | nil =>
        simp only [List.nil_append, List.cons.injEq] at hc1
        exact ⟨hc1.2.symm, hc1.1 ▸ rfl, hflag⟩
      | cons x xs =>
        simp only [List.cons_append, List.cons.injEq] at hc1
        have := congrArg List.length hc1.2
        simp only [List.length_nil, List.length_append, List.length_cons] at this
        omega
    · rw [if_neg hflag] at hc1
      have := congrArg List.length hc1
      simp only [List.length_nil, List.length_append, List.length_cons] at this
      omega
  rcases List.append_eq_append_iff.mp hsplit with ⟨a1, -, htl⟩ | ⟨c1, hex, hit⟩
  · exact htail a1 htl
  · cases c1 with
    | nil =>
      rw [List.nil_append] at hit
      exact htail [] (by rw [List.nil_append]; exact hit.symm)
    | cons x xs =>
      simp only [List.cons_append, List.cons.injEq] at hit
      have hx : item ∈ extra := by
        rw [hex, hit.1]
        simp
      exact absurd hch (hall item hx)

/-- The version menu of `/en/documentation/v1/a.html` with the flag set. -/
theorem latest_item_after_first_witness :
    isLiteralFragment "/documentation" = true ∧
    emptyTemplateData.VersionItems = [] ∧
    ((getVersionMenuData decimalModel ⟨"v1", "stable", true, "/documentation"⟩
      ⟨[⟨"v1", [⟨"stable", "v1.2"⟩]⟩]⟩ emptyTemplateData
      ⟨some ⟨"/en/documentation/v1/a.html", none⟩, none⟩).returned?.map
        (fun out => out.1.VersionItems))
      = some [⟨"", "", "v1", "v1", true⟩, ⟨"v1", "stable", "v1.2", "v1.2", false⟩,
         ⟨"", "", "latest", "latest", false⟩] ∧
    ∃ out first others,
      getVersionMenuData decimalModel ⟨"v1", "stable", true, "/documentation"⟩
        ⟨[⟨"v1", [⟨"stable", "v1.2"⟩]⟩]⟩ emptyTemplateData
        ⟨some ⟨"/en/documentation/v1/a.html", none⟩, none⟩ = Outcome.done out ∧
      out.1.VersionItems = first :: others ∧
      ∀ pre item post, others = pre ++ item :: post → isLatestItem item →
        post = [] ∧ item.IsCurrent = false ∧ true = true :=
  ⟨by decide, rfl, by decide,
   latest_item_after_first decimalModel ⟨"v1", "stable", true, "/documentation"⟩
    ⟨[⟨"v1", [⟨"stable", "v1.2"⟩]⟩]⟩ emptyTemplateData
    ⟨some ⟨"/en/documentation/v1/a.html", none⟩, none⟩ (by decide) rfl⟩

/-- Claim C11 (as stated) fails: with the flag off, the menu of the request
`/en/documentation/latest/a.html` starts with the current item, whose version
is `latest` with empty group and channel; it is current and it is not the last
item. -/
theorem latest_item_counterexample :
    ((getVersionMenuData decimalModel ⟨"v1", "stable", false, "/documentation"⟩
      ⟨[⟨"v1", [⟨"stable", "v1.2"⟩]⟩]⟩ emptyTemplateData
      ⟨some ⟨"/en/documentation/latest/a.html", none⟩, none⟩).returned?.map
        (fun out => out.1.VersionItems))
      = some [⟨"", "", "latest", "latest", true⟩,
          ⟨"v1", "stable", "v1.2", "v1.2", false⟩] ∧
    isLatestItem ⟨"", "", "latest", "latest", true⟩ ∧
    (⟨"", "", "latest", "latest", true⟩ : versionMenuItems).IsCurrent = true := by
  decide

/-! ## Theorems: request decomposition -/

/-- A path that starts with `/d`, as `/documentation/...` does, has no language
prefix and `getVersionURL` returns the empty string for it. -/
theorem getVersionURL_no_language (GlobalConfig : GlobalConfigType) (path : String)
    (q : Option String) (requestURI : Option URL) (rest : List Char)
    (h : path.data = '/' :: 'd' :: rest) :
    getVersionURL GlobalConfig ⟨some ⟨path, q⟩, requestURI⟩ = "" := by
  have hne : path ≠ "/404.html" := by
    intro e
    rw [e] at h
    revert h
    simp
  have hre : reVersionURL GlobalConfig.LocationVersions path.data = [] := by
    rw [h]
    simp [reVersionURL, Matcher.bind, Matcher.lit, reLangGroup, Matcher.alt]
  simp [getVersionURL, hne, findSubmatch, hre, trimSlashPrefix]

/-- Claim C14 (the code at the failing input). For the path of its own
comment, `/documentation/v1.2.3-plus-fix5/reference/build_process.html`,
`getVersionURL` returns the empty string, not `v1.2.3-plus-fix5`: the pattern
asks for the prefix `/ru` or `/en`. -/
theorem getVersionURL_comment_example :
    getVersionURL ⟨"v1", "stable", false, "/documentation"⟩
      ⟨some ⟨"/documentation/v1.2.3-plus-fix5/reference/build_process.html", none⟩, none⟩
      = "" ∧
    getVersionURL ⟨"v1", "stable", false, "/documentation"⟩
      ⟨some ⟨"/documentation/v1.2.3-plus-fix5/reference/build_process.html", none⟩, none⟩
      ≠ "v1.2.3-plus-fix5" := by
  decide

theorem head?_bind {α β : Type} (m : Matcher α) (f : α → Matcher β) (s r : List Char)
    (a : α) (x : β × List Char) (hm : (m s).head? = some (a, r))
    (hf : (f a r).head? = some x) : (Matcher.bind m f s).head? = some x := by
  unfold Matcher.bind
  cases hms : m s with
  | nil => simp [hms] at hm
  | cons y ys =>
    simp only [hms, List.head?_cons, Option.some.injEq] at hm
    subst hm
    simp only [List.flatMap_cons, List.head?_append, hf]
    rfl

theorem lit_append (p rest : List Char) : Matcher.lit p (p ++ rest) = [(p, rest)] := by
  have h : p.isPrefixOf (p ++ rest) = true := by
    simp [List.isPrefixOf_iff_prefix]
  simp [Matcher.lit, h]

theorem reLangGroup_head (l rest : List Char) (hl : l = "ru".data ∨ l = "en".data) :
    (reLangGroup (l ++ rest)).head? = some (l, rest) := by
  rcases hl with rfl | rfl
  · show (Matcher.lit "ru".data ("ru".data ++ rest)
      ++ Matcher.lit "en".data ("ru".data ++ rest)).head? = _
    rw [lit_append]
    rfl
  · have h1 : Matcher.lit "ru".data ("en".data ++ rest) = [] := by
      simp [Matcher.lit, List.isPrefixOf]
    show (Matcher.lit "ru".data ("en".data ++ rest)
      ++ Matcher.lit "en".data ("en".data ++ rest)).head? = _
    rw [h1, lit_append]
    rfl

theorem many_cons_pos (p : Char → Bool) (x : Char) (t : List Char) (hx : p x = true) :
    Matcher.many p (x :: t)
      = (Matcher.many p t).map (fun r => (x :: r.1, r.2)) ++ [([], x :: t)] := by
  show (if p x = true then _ else _) = _
  rw [if_pos hx]

theorem many_head (p : Char → Bool) (s rest : List Char) (hs : ∀ c ∈ s, p c = true)
    (hrest : ∀ c t, rest = c :: t → p c = false) :
    (Matcher.many p (s ++ rest)).head? = some (s, rest) := by
  induction s with
  | nil =>
    cases rest with
    | nil => rfl
    | cons c t => simp [Matcher.many, hrest c t rfl]
  | cons x t ih =>
    have hx : p x = true := hs x (List.mem_cons_self _ _)
    have iht := ih (fun c hc => hs c (List.mem_cons_of_mem _ hc))
    rw [List.cons_append, many_cons_pos p x (t ++ rest) hx, List.head?_append,
      List.head?_map, iht]
    rfl

theorem many1_head (p : Char → Bool) (s rest : List Char) (hne : s ≠ [])
    (hs : ∀ c ∈ s, p c = true) (hrest : ∀ c t, rest = c :: t → p c = false) :
    (Matcher.many1 p (s ++ rest)).head? = some (s, rest) := by
  cases s with
  | nil => exact absurd rfl hne
  | cons x t =>
    have hx : p x = true := hs x (List.mem_cons_self _ _)
    have ht := many_head p t rest (fun c hc => hs c (List.mem_cons_of_mem _ hc)) hrest
    rw [List.cons_append, many1_cons_pos p x (t ++ rest) hx, List.head?_map, ht]
    rfl

theorem opt_head {α : Type} (m : Matcher α) (s r : List Char) (a : α)
    (hm : (m s).head? = some (a, r)) :
    (Matcher.opt m s).head? = some (some a, r) := by
  show (Matcher.bind m (fun a => Matcher.pure (some a)) s
    ++ Matcher.pure none s).head? = _
  rw [List.head?_append,
    head?_bind m (fun a => Matcher.pure (some a)) s r a (some a, r) hm rfl]
  rfl

theorem lit_head (p rest : List Char) :
    (Matcher.lit p (p ++ rest)).head? = some (p, rest) := by
  rw [lit_append]
  rfl

theorem many_head_all (p : Char → Bool) (s : List Char) (hs : ∀ c ∈ s, p c = true) :
    (Matcher.many p s).head? = some (s, []) := by
  have := many_head p s [] hs (fun c t h => by simp at h)
  rwa [List.append_nil] at this

theorem many1_head_all (p : Char → Bool) (s : List Char) (hne : s ≠ [])
    (hs : ∀ c ∈ s, p c = true) :
    (Matcher.many1 p s).head? = some (s, []) := by
  have := many1_head p s [] hne hs (fun c t h => by simp at h)
  rwa [List.append_nil] at this

theorem slash_stops (r : List Char) :
    ∀ c t, "/".data ++ r = c :: t → isNotSlash c = false := by
  intro c t h
  have hc : '/' = c := (List.cons.inj h).1
  rw [← hc]
  decide

/-- The pattern of `getVersionURL` on a well-formed versioned path: the
preferred match captures the segment. -/
theorem reVersionURL_head (lv : String) (l s r : List Char)
    (hl : l = "ru".data ∨ l = "en".data) (hne : s ≠ [])
    (hs : ∀ c ∈ s, isNotSlash c = true) (hr : ∀ c ∈ r, isDot c = true) :
    (reVersionURL lv ("/".data ++ (l ++ (lv.data ++ ("/".data ++ (s ++ ("/".data ++ r))))))).head?
      = some (⟨s⟩, []) := by
  unfold reVersionURL
  refine head?_bind _ _ _ _ _ _ (lit_head _ _) ?_
  refine head?_bind _ _ _ _ _ _ (reLangGroup_head l _ hl) ?_
  refine head?_bind _ _ _ _ _ _ (lit_head _ _) ?_
  refine head?_bind _ _ _ _ _ _ (lit_head _ _) ?_
  refine head?_bind _ _ _ _ _ _ (many1_head isNotSlash s _ hne hs (slash_stops r)) ?_
  refine head?_bind _ _ _ _ _ _ (opt_head _ _ _ _ (lit_head _ _)) ?_
  refine head?_bind _ _ _ _ _ _ (many_head_all isDot r hr) ?_
  rfl

/-- The pattern of `getDocPageURLRelative` on a well-formed versioned path: the
preferred match captures the versions root with the segment, and the rest. -/
theorem reDocPage_head (lv : String) (l s r : List Char)
    (hl : l = "ru".data ∨ l = "en".data) (hne : s ≠ [])
    (hs : ∀ c ∈ s, isNotSlash c = true) (hr : ∀ c ∈ r, isDot c = true) :
    (reDocPage lv ("/".data ++ (l ++ (lv.data ++ ("/".data ++ (s ++ ("/".data ++ r))))))).head?
      = some ((⟨lv.data ++ "/".data ++ s⟩, ⟨r⟩), []) := by
  unfold reDocPage
  refine head?_bind _ _ _ _ _ _ (lit_head _ _) ?_
  refine head?_bind _ _ _ _ _ _ (reLangGroup_head l _ hl) ?_
  have hgroup : (Matcher.bind (Matcher.lit lv.data) (fun a =>
      Matcher.bind (Matcher.lit "/".data) (fun b =>
        Matcher.bind (Matcher.many1 isNotSlash) (fun c =>
          Matcher.pure (a ++ b ++ c))))
      (lv.data ++ ("/".data ++ (s ++ ("/".data ++ r))))).head?
      = some (lv.data ++ "/".data ++ s, "/".data ++ r) := by
    refine head?_bind _ _ _ _ _ _ (lit_head _ _) ?_
    refine head?_bind _ _ _ _ _ _ (lit_head _ _) ?_
    refine head?_bind _ _ _ _ _ _ (many1_head isNotSlash s _ hne hs (slash_stops r)) ?_
    rfl
  refine head?_bind _ _ _ _ _ _ (opt_head _ _ _ _ hgroup) ?_
  refine head?_bind _ _ _ _ _ _ (lit_head _ _) ?_
  refine head?_bind _ _ _ _ _ _ (many_head_all isDot r hr) ?_
  rfl

/-- The pattern of `getCurrentLang` on a path with a language, the versions
root and a non-empty rest without a newline: the capture is the language. -/
theorem reCurrentLang_head (lv : String) (l w : List Char)
    (hl : l = "ru".data ∨ l = "en".data) (hne : w ≠ [])
    (hw : ∀ c ∈ w, isDot c = true) :
    (reCurrentLang lv ("/".data ++ (l ++ (lv.data ++ ("/".data ++ w))))).head?
      = some (⟨l⟩, []) := by
  unfold reCurrentLang
  refine head?_bind _ _ _ _ _ _ (lit_head _ _) ?_
  refine head?_bind _ _ _ _ _ _ (reLangGroup_head l _ hl) ?_
  refine head?_bind _ _ _ _ _ _ (lit_head _ _) ?_
  refine head?_bind _ _ _ _ _ _ (lit_head _ _) ?_
  refine head?_bind _ _ _ _ _ _ (many1_head_all isDot w hne hw) ?_
  rfl

theorem versioned_path_data (l s r : String) :
    ("/" ++ l ++ "/documentation/" ++ s ++ "/" ++ r).data
      = "/".data ++ (l.data ++ ("/documentation".data ++ ("/".data ++
          (s.data ++ ("/".data ++ r.data))))) := by
  simp only [String.data_append, List.append_assoc]
  rfl

theorem versioned_path_ne_404 (l s r : String) (hl : l = "ru" ∨ l = "en") :
    "/" ++ l ++ "/documentation/" ++ s ++ "/" ++ r ≠ "/404.html" := by
  intro e
  have h := congrArg String.data e
  rw [versioned_path_data] at h
  rcases hl with rfl | rfl
  · have h2 := (List.cons.inj (List.cons.inj h).2).1
    revert h2
    decide
  · have h2 := (List.cons.inj (List.cons.inj h).2).1
    revert h2
    decide

theorem trimSlashPrefix_of_not_mem (s : String) (h : '/' ∉ s.data) :
    trimSlashPrefix s = s := by
  unfold trimSlashPrefix
  split
  · rename_i t heq
    exact absurd (heq ▸ List.mem_cons_self _ _) h
  · rfl

theorem lang_data (l : String) (hl : l = "ru" ∨ l = "en") :
    l.data = "ru".data ∨ l.data = "en".data := by
  rcases hl with rfl | rfl
  · exact Or.inl rfl
  · exact Or.inr rfl

/-- Claim C13 (as amended). Decomposition of a well-formed versioned path: with
versions root `/documentation`, for every language `l` in ru, en, every
non-empty segment `s` containing no `/`, and every remainder `r` containing no
newline, the path `"/" ++ l ++ "/documentation/" ++ s ++ "/" ++ r` decomposes
to the version URL segment `s`, to the relative page path `r`, and, when `s`
contains no newline, to the language `l`. -/
theorem decompose_versioned_path (GlobalConfig : GlobalConfigType) (l s r : String)
    (q : Option String) (requestURI : Option URL)
    (hlv : GlobalConfig.LocationVersions = "/documentation")
    (hl : l = "ru" ∨ l = "en") (hne : s ≠ "") (hs : '/' ∉ s.data)
    (hr : '\n' ∉ r.data) :
    getVersionURL GlobalConfig
      ⟨some ⟨"/" ++ l ++ "/documentation/" ++ s ++ "/" ++ r, q⟩, requestURI⟩ = s ∧
    getDocPageURLRelative GlobalConfig
      ⟨some ⟨"/" ++ l ++ "/documentation/" ++ s ++ "/" ++ r, q⟩, requestURI⟩ false = r ∧
    ('\n' ∉ s.data →
      getCurrentLang GlobalConfig
        ⟨some ⟨"/" ++ l ++ "/documentation/" ++ s ++ "/" ++ r, q⟩, requestURI⟩ = l) := by
  have h404 := versioned_path_ne_404 l s r hl
  have hld := lang_data l hl
  have hsne : s.data ≠ [] := fun e => hne (String.ext e)
  have hss : ∀ c ∈ s.data, isNotSlash c = true := by
    intro c hc
    simp only [isNotSlash, decide_eq_true_eq]
    exact fun e => hs (e ▸ hc)
  have hrd : ∀ c ∈ r.data, isDot c = true := by
    intro c hc
    simp only [isDot, decide_eq_true_eq]
    exact fun e => hr (e ▸ hc)
  refine ⟨?_, ?_, ?_⟩
  · have hre := reVersionURL_head "/documentation" l.data s.data r.data hld hsne hss hrd
    rw [← versioned_path_data] at hre
    simp only [getVersionURL, if_neg h404, findSubmatch, hlv, hre, Option.map_some']
    exact trimSlashPrefix_of_not_mem s hs
  · have hre := reDocPage_head "/documentation" l.data s.data r.data hld hsne hss hrd
    rw [← versioned_path_data] at hre
    have hlen : (⟨"/documentation".data ++ "/".data ++ s.data⟩ : String).length > 0 := by
      show ("/documentation".data ++ "/".data ++ s.data).length > 0
      apply List.length_pos.mpr
      intro e
      exact hsne (List.append_eq_nil.mp e).2
    simp only [getDocPageURLRelative, if_neg h404, findSubmatch, hlv, hre,
      Option.map_some', Bool.false_eq_true, if_false, hlen, if_true]
  · intro hsn
    have hw : ∀ c ∈ s.data ++ ("/".data ++ r.data), isDot c = true := by
      intro c hc
      rcases List.mem_append.mp hc with h1 | h1
      · simp only [isDot, decide_eq_true_eq]
        exact fun e => hsn (e ▸ h1)
      · rcases List.mem_append.mp h1 with h2 | h2
        · rw [List.mem_singleton.mp h2]
          decide
        · exact hrd c h2
    have hwne : s.data ++ ("/".data ++ r.data) ≠ [] := by
      intro e
      exact hsne (List.append_eq_nil.mp e).1
    have hre := reCurrentLang_head "/documentation" l.data _ hld hwne hw
    rw [← versioned_path_data] at hre
    simp only [getCurrentLang, if_neg h404, findSubmatch, hlv, hre, Option.map_some']

/-- The path `/ru/documentation/v1.2.3-plus-fix5/reference/build.html`. -/
theorem decompose_versioned_path_witness :
    ("ru" = "ru" ∨ "ru" = "en") ∧ "v1.2.3-plus-fix5" ≠ "" ∧
    '/' ∉ "v1.2.3-plus-fix5".data ∧ '\n' ∉ "reference/build.html".data ∧
    getVersionURL ⟨"v1", "stable", false, "/documentation"⟩
      ⟨some ⟨"/" ++ "ru" ++ "/documentation/" ++ "v1.2.3-plus-fix5" ++ "/"
        ++ "reference/build.html", none⟩, none⟩ = "v1.2.3-plus-fix5" ∧
    getDocPageURLRelative ⟨"v1", "stable", false, "/documentation"⟩
      ⟨some ⟨"/" ++ "ru" ++ "/documentation/" ++ "v1.2.3-plus-fix5" ++ "/"
        ++ "reference/build.html", none⟩, none⟩ false = "reference/build.html" ∧
    ('\n' ∉ "v1.2.3-plus-fix5".data →
      getCurrentLang ⟨"v1", "stable", false, "/documentation"⟩
        ⟨some ⟨"/" ++ "ru" ++ "/documentation/" ++ "v1.2.3-plus-fix5" ++ "/"
          ++ "reference/build.html", none⟩, none⟩ = "ru") :=
  ⟨by decide, by decide, by decide, by decide,
   decompose_versioned_path ⟨"v1", "stable", false, "/documentation"⟩
    "ru" "v1.2.3-plus-fix5" "reference/build.html" none none rfl (by decide) (by decide)
    (by decide) (by decide)⟩

/-- Claim C13 (as stated) fails: the segment `a`, newline, `b` is non-empty and
holds no `/`, the remainder `x` is non-empty and holds no newline, yet for the
path `/ru/documentation/<segment>/x` the language is `en`, not `ru`. -/
theorem decompose_language_counterexample :
    "a\nb" ≠ "" ∧ '/' ∉ "a\nb".data ∧ "x" ≠ "" ∧ '\n' ∉ "x".data ∧
    getCurrentLang ⟨"v1", "stable", false, "/documentation"⟩
      ⟨some ⟨"/" ++ "ru" ++ "/documentation/" ++ "a\nb" ++ "/" ++ "x", none⟩, none⟩
      = "en" ∧
    getCurrentLang ⟨"v1", "stable", false, "/documentation"⟩
      ⟨some ⟨"/" ++ "ru" ++ "/documentation/" ++ "a\nb" ++ "/" ++ "x", none⟩, none⟩
      ≠ "ru" := by
  decide

end VRouter
